import Mathlib

/-!
# Custom rules of the Horusec CLI: validation, match type, pattern compilation

Shallow embedding of `internal/entities/custom_rules/custom_rule.go`.

Go strings are byte sequences, so a string is a list of bytes.  The methods of
`CustomRule` call into libraries (`ozzo-validation`, `google/uuid`,
`govalidator`, `regexp`, `encoding/json`); the parts of those libraries that
the methods reach are embedded next to them, each under the name it has in
its library.
-/

namespace Horusec

/-! ## Strings and bytes -/

/-- A Go `byte`. -/
abbrev Byte := Fin 256

/-- A Go `string`: an arbitrary sequence of bytes (not necessarily UTF-8). -/
abbrev GoString := List Byte

/-- The bytes of an ASCII literal. -/
def ascii (s : String) : GoString := s.toList.map (fun ch => Fin.ofNat ch.toNat)

/-- A Go slice of strings as a struct field holds it: `nil` (`none`) or a
sequence of elements. -/
abbrev StringSlice := Option (List GoString)

/-- The elements a `range` over the slice visits. -/
def StringSlice.range (v : StringSlice) : List GoString := v.getD []

/-! ## `google/uuid` -/

/-- The type `uuid.UUID`, a `[16]byte`. -/
def UUID := { l : List Byte // l.length = 16 }

instance : DecidableEq UUID := by unfold UUID; infer_instance

/-- The value `uuid.Nil`: the zero value of `[16]byte`. -/
def uuid.Nil : UUID := ⟨List.replicate 16 0, by decide⟩

/-- The table `hextable = "0123456789abcdef"` of `encoding/hex`, indexed by a nibble. -/
def hextable (n : Nat) : Byte :=
  if n < 10 then Fin.ofNat (48 + n) else Fin.ofNat (87 + n)

/-- The function `hex.Encode`: two lower-case hexadecimal digits per source byte. -/
def hex.Encode (src : List Byte) : GoString :=
  src.flatMap (fun v => [hextable (v.val / 16), hextable (v.val % 16)])

/-- The function `encodeHex` behind `UUID.String`: the form
`xxxxxxxx-xxxx-xxxx-xxxx-xxxxxxxxxxxx`. -/
def uuid.encodeHex (u : UUID) : GoString :=
  hex.Encode (u.val.take 4) ++ [45] ++
  hex.Encode ((u.val.drop 4).take 2) ++ [45] ++
  hex.Encode ((u.val.drop 6).take 2) ++ [45] ++
  hex.Encode ((u.val.drop 8).take 2) ++ [45] ++
  hex.Encode (u.val.drop 10)

/-- The method `UUID.String`. -/
def UUID.String (u : UUID) : GoString := uuid.encodeHex u

/-- The method `UUID.Value` (`driver.Valuer`): always the string form, no error. -/
def UUID.Value (u : UUID) : GoString := u.String

/-- The method `UUID.MarshalText`. -/
def UUID.MarshalText (u : UUID) : GoString := uuid.encodeHex u

/-- The table `xvalues`: the value of a hexadecimal digit, `255` for any other byte. -/
def uuid.xvalues (c : Byte) : Nat :=
  if 0x30 ≤ c.val ∧ c.val ≤ 0x39 then c.val - 0x30
  else if 0x41 ≤ c.val ∧ c.val ≤ 0x46 then c.val - 0x41 + 10
  else if 0x61 ≤ c.val ∧ c.val ≤ 0x66 then c.val - 0x61 + 10
  else 255

/-- The function `xtob`: the byte two hexadecimal digits stand for. -/
def uuid.xtob (x1 x2 : Byte) : Option Byte :=
  let b1 := uuid.xvalues x1
  let b2 := uuid.xvalues x2
  if b1 ≠ 255 ∧ b2 ≠ 255 then some (Fin.ofNat (b1 * 16 + b2)) else none

/-- Decode consecutive pairs of hexadecimal digits with `xtob`. -/
def uuid.hexPairs : List Byte → Option (List Byte)
  | [] => some []
  | [_] => none
  | x1 :: x2 :: rest =>
    match uuid.xtob x1 x2, uuid.hexPairs rest with
    | some v, some vs => some (v :: vs)
    | _, _ => none

/-- Sixteen bytes as a `UUID`. -/
def uuid.ofBytes (l : List Byte) : Option UUID :=
  if h : l.length = 16 then some ⟨l, h⟩ else none

/-- The tail of `ParseBytes`, on at least 36 bytes: dashes at 8, 13, 18 and 23,
and pairs of hexadecimal digits in the five groups. -/
def uuid.parseCanonical (b : List Byte) : Option UUID :=
  if b.get? 8 ≠ some 0x2D ∨ b.get? 13 ≠ some 0x2D ∨ b.get? 18 ≠ some 0x2D
      ∨ b.get? 23 ≠ some 0x2D then none
  else
    match uuid.hexPairs (b.take 8), uuid.hexPairs ((b.drop 9).take 4),
      uuid.hexPairs ((b.drop 14).take 4), uuid.hexPairs ((b.drop 19).take 4),
      uuid.hexPairs ((b.drop 24).take 12) with
    | some g1, some g2, some g3, some g4, some g5 => uuid.ofBytes (g1 ++ g2 ++ g3 ++ g4 ++ g5)
    | _, _, _, _, _ => none

/-- Lower-case an ASCII letter; `bytes.ToLower` of nine bytes equals `urn:uuid:`
only when the bytes are ASCII and equal it up to the case of the letters. -/
def asciiLower (c : Byte) : Byte :=
  if 0x41 ≤ c.val ∧ c.val ≤ 0x5A then Fin.ofNat (c.val + 0x20) else c

/-- The function `uuid.ParseBytes`: the canonical form, with an optional
`urn:uuid:` prefix or enclosing pair of bytes, or 32 hexadecimal digits. -/
def uuid.ParseBytes (b : List Byte) : Option UUID :=
  if b.length = 36 then uuid.parseCanonical b
  else if b.length = 36 + 9 then
    (if (b.take 9).map asciiLower = ascii "urn:uuid:" then uuid.parseCanonical (b.drop 9)
     else none)
  else if b.length = 36 + 2 then uuid.parseCanonical (b.drop 1)
  else if b.length = 32 then (uuid.hexPairs b).bind uuid.ofBytes
  else none

/-- The method `UUID.UnmarshalText`: the parsed identifier, or an error. -/
def UUID.UnmarshalText (data : GoString) : Option UUID := uuid.ParseBytes data

/-! ## `govalidator.IsUUID` -/

/-- The character class `[0-9a-f]`. -/
def isLowerHex (b : Byte) : Bool :=
  (48 ≤ b.val && b.val ≤ 57) || (97 ≤ b.val && b.val ≤ 102)

/-- Match `[0-9a-f]{n}` at the head of `s`; the rest of `s` on success. -/
def matchHexRun : Nat → GoString → Option GoString
  | 0, s => some s
  | _ + 1, [] => none
  | n + 1, b :: s => if isLowerHex b then matchHexRun n s else none

/-- Match a literal `-` at the head of `s`. -/
def matchDash : GoString → Option GoString
  | b :: s => if b = 45 then some s else none
  | [] => none

/-- The function `govalidator.IsUUID`: a match of the whole string against
`^[0-9a-f]{8}-[0-9a-f]{4}-[0-9a-f]{4}-[0-9a-f]{4}-[0-9a-f]{12}$`. -/
def govalidator.IsUUID (s : GoString) : Bool :=
  match (((((((matchHexRun 8 s).bind matchDash).bind (matchHexRun 4)).bind matchDash).bind
      (matchHexRun 4)).bind matchDash).bind (matchHexRun 4)).bind matchDash with
  | some r => (matchHexRun 12 r) == some []
  | none => false

/-! ## `ozzo-validation` -/

/-- The values that reach a validation rule as `interface\x7b\x7d`: a value of a
named string type (kind `reflect.String`), or a `uuid.UUID` (kind
`reflect.Array`, implementing `driver.Valuer`). -/
inductive Value where
  | string (type : String) (s : GoString)
  | uuid (u : UUID)
  deriving DecidableEq

/-- The errors the rules used here can return. -/
inductive RuleError where
  /-- `ErrRequired`: "cannot be blank". -/
  | ErrRequired
  /-- `ErrInInvalid`: "must be a valid value". -/
  | ErrInInvalid
  /-- `ErrUUID`: "must be a valid UUID". -/
  | ErrUUID
  /-- The error of `EnsureString`: "must be either a string or byte slice". -/
  | ErrNotString
  deriving DecidableEq, Repr

/-- The function `validation.Indirect`: a value implementing `driver.Valuer` is
replaced by what its `Value()` returns; the flag says whether the value is nil
(never, for the two kinds of value here). -/
def validation.Indirect : Value → Value × Bool
  | .string t s => (.string t s, false)
  | .uuid u => (.string "string" u.Value, false)

/-- The function `validation.IsEmpty`: for the string and array kinds, length zero. -/
def validation.IsEmpty : Value → Bool
  | .string _ s => s.length == 0
  | .uuid u => u.val.length == 0

/-- The function `validation.EnsureString`. -/
def validation.EnsureString : Value → Except RuleError GoString
  | .string _ s => .ok s
  | .uuid _ => .error .ErrNotString

/-- A validation rule: `nil` (`none`) when the value is valid. -/
abbrev Rule := Value → Option RuleError

/-- The rule `validation.Required` (`skipNil = false`, `condition = true`). -/
def validation.Required : Rule := fun value =>
  let (value, isNil) := validation.Indirect value
  if isNil || validation.IsEmpty value then some .ErrRequired else none

/-- The rule `validation.In(elements...)`: an empty value is valid; otherwise the
value has to equal one of the elements (same dynamic type, same contents). -/
def validation.In (elements : List Value) : Rule := fun value =>
  let (value, isNil) := validation.Indirect value
  if isNil || validation.IsEmpty value then none
  else if elements.any (fun e => e == value) then none
  else some .ErrInInvalid

/-- A `validation.StringRule`, as built by `NewStringRuleWithError`. -/
def validation.StringRule (validate : GoString → Bool) (err : RuleError) : Rule := fun value =>
  let (value, isNil) := validation.Indirect value
  if isNil || validation.IsEmpty value then none
  else match validation.EnsureString value with
    | .error e => some e
    | .ok str => if validate str then none else some err

/-- The rule `is.UUID`. -/
def is.UUID : Rule := validation.StringRule govalidator.IsUUID .ErrUUID

/-- The function `validation.Validate(value, rules...)`: the error of the first
rule that fails.  None of the values here is `Validatable`, a map, or a slice of
`Validatable`, so nothing is checked after the rules. -/
def validation.Validate (value : Value) : List Rule → Option RuleError
  | [] => none
  | rule :: rules =>
    match rule value with
    | some err => some err
    | none => validation.Validate value rules

/-- The result of `validation.Field(&c.F, rules...)` once `ValidateStruct` has
found the struct field: the name under which its error is reported (the `json`
tag), the field's value, and the rules. -/
structure FieldRules where
  name : String
  value : Value
  rules : List Rule

/-- The type `validation.Errors`, a `map[string]error` from field name to the
field's error; kept as an association list in field order. -/
abbrev Errors := List (String × RuleError)

/-- The loop of `validation.ValidateStruct`: every field is validated, and each
failing field adds its entry. -/
def validation.collect : List FieldRules → Errors
  | [] => []
  | fr :: fields =>
    match validation.Validate fr.value fr.rules with
    | some err => (fr.name, err) :: validation.collect fields
    | none => validation.collect fields

/-- The function `validation.ValidateStruct`: `nil` when no field failed, else
the map of all field errors. -/
def validation.ValidateStruct (fields : List FieldRules) : Option Errors :=
  let errs := validation.collect fields
  if errs.length > 0 then some errs else none

/-! ## Enumerations -/

/-- The type `languages.Language` (a string type). -/
def languages.typeName : String := "languages.Language"
/-- The type `severities.Severity` (a string type). -/
def severities.typeName : String := "severities.Severity"
/-- The type `confidence.Confidence` (a string type). -/
def confidence.typeName : String := "confidence.Confidence"
/-- The type `customRulesEnums.MathType` (a string type). -/
def customRulesEnums.typeName : String := "customRulesEnums.MathType"

/-- The constants of `horusec-devkit/pkg/enums/languages` that `Validate` names. -/
def languages.CSharp : GoString := ascii "C#"
def languages.Dart : GoString := ascii "Dart"
def languages.Java : GoString := ascii "Java"
def languages.Kotlin : GoString := ascii "Kotlin"
def languages.Yaml : GoString := ascii "YAML"
def languages.Leaks : GoString := ascii "Leaks"
def languages.Javascript : GoString := ascii "JavaScript"
def languages.Nginx : GoString := ascii "Nginx"

/-- The constants of `horusec-devkit/pkg/enums/severities`. -/
def severities.Info : GoString := ascii "INFO"
def severities.Unknown : GoString := ascii "UNKNOWN"
def severities.Low : GoString := ascii "LOW"
def severities.Medium : GoString := ascii "MEDIUM"
def severities.High : GoString := ascii "HIGH"
def severities.Critical : GoString := ascii "CRITICAL"

/-- The constants of `horusec-devkit/pkg/enums/confidence`. -/
def confidence.Low : GoString := ascii "LOW"
def confidence.Medium : GoString := ascii "MEDIUM"
def confidence.High : GoString := ascii "HIGH"

/-- Modelled from the spec: the constant `Regular` of `internal/enums/custom_rules`
(the mode the spec calls Single), whose declaration is not among the sources. -/
def customRulesEnums.Regular : GoString := ascii "Regular"
/-- Modelled from the spec: the constant `OrMatch` (the mode Or). -/
def customRulesEnums.OrMatch : GoString := ascii "OrMatch"
/-- Modelled from the spec: the constant `AndMatch` (the mode And). -/
def customRulesEnums.AndMatch : GoString := ascii "AndMatch"
/-- Modelled from the spec: the constant `NotMatch` (the mode Not). -/
def customRulesEnums.NotMatch : GoString := ascii "NotMatch"

/-- The languages `Validate` allows. -/
def allowedLanguages : List GoString :=
  [languages.CSharp, languages.Dart, languages.Java, languages.Kotlin, languages.Yaml,
   languages.Leaks, languages.Javascript, languages.Nginx]

/-- The severities `Validate` allows. -/
def allowedSeverities : List GoString :=
  [severities.Info, severities.Unknown, severities.Low, severities.Medium, severities.High,
   severities.Critical]

/-- The confidences `Validate` allows. -/
def allowedConfidences : List GoString :=
  [confidence.Low, confidence.Medium, confidence.High]

/-- The combination modes `Validate` allows. -/
def allowedTypes : List GoString :=
  [customRulesEnums.Regular, customRulesEnums.OrMatch, customRulesEnums.AndMatch,
   customRulesEnums.NotMatch]

/-- The type `text.MatchType` of the scanning engine, with its four constants. -/
inductive text.MatchType where
  | OrMatch
  | Regular
  | AndMatch
  | NotMatch
  deriving DecidableEq, Repr

/-! ## `CustomRule` -/

/-- The struct `CustomRule` (the field `Type` is written `Type_`). -/
structure CustomRule where
  ID : UUID
  Name : GoString
  Description : GoString
  Language : GoString
  Severity : GoString
  Confidence : GoString
  Type_ : GoString
  Expressions : StringSlice
  deriving DecidableEq

/-- The method `CustomRule.Validate`. -/
def CustomRule.Validate (c : CustomRule) : Option Errors :=
  validation.ValidateStruct [
    ⟨"id", .uuid c.ID, [validation.Required, is.UUID]⟩,
    ⟨"language", .string languages.typeName c.Language,
      [validation.Required, validation.In (allowedLanguages.map (.string languages.typeName))]⟩,
    ⟨"severity", .string severities.typeName c.Severity,
      [validation.Required, validation.In (allowedSeverities.map (.string severities.typeName))]⟩,
    ⟨"confidence", .string confidence.typeName c.Confidence,
      [validation.Required, validation.In (allowedConfidences.map (.string confidence.typeName))]⟩,
    ⟨"type", .string customRulesEnums.typeName c.Type_,
      [validation.Required, validation.In (allowedTypes.map (.string customRulesEnums.typeName))]⟩]

/-- The entry of a field in the error `Validate` returned (`none` when `Validate`
returned `nil` or the error map has no entry for the field). -/
def entry (result : Option Errors) (field : String) : Option RuleError :=
  match result with
  | none => none
  | some errs => errs.lookup field

/-- A call of `Validate` through the pointer receiver: the returned error and the
struct behind the receiver after the call.  The body assigns nothing through
`c`, and `ValidateStruct` only reads the fields it is given pointers to. -/
def CustomRule.ValidateCall (c : CustomRule) : Option Errors × CustomRule :=
  (c.Validate, c)

/-- The five `return` statements of `GetRuleType`. -/
inductive ReturnSite where
  | caseRegular
  | caseOrMatch
  | caseAndMatch
  | caseNotMatch
  | fallback
  deriving DecidableEq, Repr

/-- The body of `GetRuleType`, with the `return` statement that was taken. -/
def CustomRule.GetRuleTypeTraced (c : CustomRule) : ReturnSite × text.MatchType :=
  if c.Type_ = customRulesEnums.Regular then (.caseRegular, text.MatchType.Regular)
  else if c.Type_ = customRulesEnums.OrMatch then (.caseOrMatch, text.MatchType.OrMatch)
  else if c.Type_ = customRulesEnums.AndMatch then (.caseAndMatch, text.MatchType.AndMatch)
  else if c.Type_ = customRulesEnums.NotMatch then (.caseNotMatch, text.MatchType.NotMatch)
  else (.fallback, text.MatchType.Regular)

/-- The method `CustomRule.GetRuleType`. -/
def CustomRule.GetRuleType (c : CustomRule) : text.MatchType :=
  c.GetRuleTypeTraced.2

/-! ## Pattern compilation -/

/-- The type `regexp.Regexp`: the source text and the compiled program. -/
structure Regexp (Prog : Type) where
  expr : GoString
  prog : Prog
  deriving DecidableEq

/-- The function `regexp.Compile`: the expression is parsed and compiled by
`regexp/syntax` (the parameter `parse`); a parse error is returned as it is, and
otherwise the `Regexp` keeps the expression it was compiled from. -/
def regexp.Compile {Prog Err : Type} (parse : GoString → Except Err Prog) (expr : GoString) :
    Except Err (Regexp Prog) :=
  match parse expr with
  | .error err => .error err
  | .ok prog => .ok ⟨expr, prog⟩

/-- One call of `logger.LogError(msg, err)`, as seen by the diagnostics sink. -/
structure LogEntry (Err : Type) where
  msg : GoString
  err : Err
  deriving DecidableEq

/-- The message `fmt.Sprintf("\x7bHORUSEC_CLI\x7d failed to compile custom rule regex: %s", expression)`. -/
def compileFailureMessage (expression : GoString) : GoString :=
  ascii "\x7bHORUSEC_CLI\x7d failed to compile custom rule regex: " ++ expression

/-- The loop of `GetExpressions`, over the expressions still to visit, on the
pair of the result slice and the log. -/
def CustomRule.GetExpressions.loop {Prog Err : Type} (parse : GoString → Except Err Prog) :
    List GoString → List (Regexp Prog) × List (LogEntry Err) →
    List (Regexp Prog) × List (LogEntry Err)
  | [], state => state
  | expression :: rest, (expressions, log) =>
    match regexp.Compile parse expression with
    | .error err =>
      CustomRule.GetExpressions.loop parse rest
        (expressions, log ++ [⟨compileFailureMessage expression, err⟩])
    | .ok regex =>
      CustomRule.GetExpressions.loop parse rest (expressions ++ [regex], log)

/-- The method `CustomRule.GetExpressions`, run on a log: the returned slice and
the log after the call. -/
def CustomRule.GetExpressions {Prog Err : Type} (parse : GoString → Except Err Prog)
    (c : CustomRule) (log : List (LogEntry Err)) : List (Regexp Prog) × List (LogEntry Err) :=
  CustomRule.GetExpressions.loop parse c.Expressions.range ([], log)

/-- Whether `regexp.Compile` accepts an expression. -/
def compiles {Prog Err : Type} (parse : GoString → Except Err Prog) (expr : GoString) : Bool :=
  match regexp.Compile parse expr with
  | .ok _ => true
  | .error _ => false

/-- The matcher `regexp.Compile` returns for an expression, if any. -/
def compiled {Prog Err : Type} (parse : GoString → Except Err Prog) (expr : GoString) :
    Option (Regexp Prog) :=
  match regexp.Compile parse expr with
  | .ok regex => some regex
  | .error _ => none

/-- The diagnostic `GetExpressions` logs for an expression, if any. -/
def diagnostic {Prog Err : Type} (parse : GoString → Except Err Prog) (expr : GoString) :
    Option (LogEntry Err) :=
  match regexp.Compile parse expr with
  | .ok _ => none
  | .error err => some ⟨compileFailureMessage expr, err⟩

/-- The nesting depth after reading an expression from depth `depth`, or `none`
when a `)` closes nothing. -/
def groupDepth : GoString → Nat → Option Nat
  | [], depth => some depth
  | b :: rest, depth =>
    if b = 40 then groupDepth rest (depth + 1)
    else if b = 41 then (if depth = 0 then none else groupDepth rest (depth - 1))
    else groupDepth rest depth

/-- An instance of the parameter `parse` to run the compile loop on: it rejects
an expression whose parentheses do not pair up, the reason for which Go rejects
`(unclosed`, and accepts every other expression. -/
def groupCheck (expr : GoString) : Except String Unit :=
  match groupDepth expr 0 with
  | some 0 => .ok ()
  | some _ => .error "missing closing )"
  | none => .error "unexpected )"

/-! ## `unicode/utf8` and `unicode/utf16` -/

/-- The constant `utf8.RuneError`, U+FFFD. -/
def utf8.RuneError : Nat := 0xFFFD

/-- The table `first` of `unicode/utf8`: for a leading byte, `0xF0` (ASCII),
`0xF1` (invalid), or the size in the low bits and the index of the accept range
for the second byte in the high bits. -/
def utf8.first (b : Nat) : Nat :=
  if b < 0x80 then 0xF0
  else if b < 0xC2 then 0xF1
  else if b < 0xE0 then 0x02
  else if b = 0xE0 then 0x13
  else if b < 0xED then 0x03
  else if b = 0xED then 0x23
  else if b < 0xF0 then 0x03
  else if b = 0xF0 then 0x34
  else if b < 0xF4 then 0x04
  else if b = 0xF4 then 0x44
  else 0xF1

/-- The table `acceptRanges`: bounds for the second byte of a sequence. -/
def utf8.acceptRanges (i : Nat) : Nat × Nat :=
  match i with
  | 0 => (0x80, 0xBF)
  | 1 => (0xA0, 0xBF)
  | 2 => (0x80, 0x9F)
  | 3 => (0x90, 0xBF)
  | 4 => (0x80, 0x8F)
  | _ => (0, 0)

/-- The function `utf8.DecodeRune`: the rune at the head of `p` and its width in
bytes; `(RuneError, 1)` for a malformed sequence, `(RuneError, 0)` for no input.
Masks and shifts are written with `%` and `*`. -/
def utf8.DecodeRune (p : List Byte) : Nat × Nat :=
  match p with
  | [] => (utf8.RuneError, 0)
  | p0 :: t0 =>
    let x := utf8.first p0.val
    if x ≥ 0xF0 then (if x = 0xF0 then p0.val else utf8.RuneError, 1)
    else
      let sz := x % 8
      let accept := utf8.acceptRanges (x / 16)
      if p.length < sz then (utf8.RuneError, 1)
      else match t0 with
        | [] => (utf8.RuneError, 1)
        | b1 :: t1 =>
          if b1.val < accept.1 ∨ accept.2 < b1.val then (utf8.RuneError, 1)
          else if sz ≤ 2 then ((p0.val % 32) * 64 + b1.val % 64, 2)
          else match t1 with
            | [] => (utf8.RuneError, 1)
            | b2 :: t2 =>
              if b2.val < 0x80 ∨ 0xBF < b2.val then (utf8.RuneError, 1)
              else if sz ≤ 3 then
                ((p0.val % 16) * 4096 + (b1.val % 64) * 64 + b2.val % 64, 3)
              else match t2 with
                | [] => (utf8.RuneError, 1)
                | b3 :: _ =>
                  if b3.val < 0x80 ∨ 0xBF < b3.val then (utf8.RuneError, 1)
                  else ((p0.val % 8) * 262144 + (b1.val % 64) * 4096 + (b2.val % 64) * 64
                    + b3.val % 64, 4)

/-- The function `utf8.EncodeRune`, on a rune given as a `uint32`: a surrogate or
a value above `MaxRune` is encoded as `RuneError`. -/
def utf8.EncodeRune (r : Nat) : List Byte :=
  if r ≤ 0x7F then [Fin.ofNat r]
  else if r ≤ 0x7FF then [Fin.ofNat (0xC0 + r / 64), Fin.ofNat (0x80 + r % 64)]
  else if r > 0x10FFFF ∨ (0xD800 ≤ r ∧ r ≤ 0xDFFF) then [0xEF, 0xBF, 0xBD]
  else if r ≤ 0xFFFF then
    [Fin.ofNat (0xE0 + r / 4096), Fin.ofNat (0x80 + r / 64 % 64), Fin.ofNat (0x80 + r % 64)]
  else
    [Fin.ofNat (0xF0 + r / 262144), Fin.ofNat (0x80 + r / 4096 % 64),
     Fin.ofNat (0x80 + r / 64 % 64), Fin.ofNat (0x80 + r % 64)]

/-- The loop of `utf8.ValidString`: no position decodes to a malformed sequence. -/
def utf8.validLoop : Nat → GoString → Bool
  | _, [] => true
  | 0, _ :: _ => false
  | steps + 1, b :: s =>
    let d := utf8.DecodeRune (b :: s)
    if d.1 = utf8.RuneError ∧ d.2 = 1 then false
    else utf8.validLoop steps ((b :: s).drop d.2)

/-- The function `utf8.ValidString`. -/
def utf8.ValidString (s : GoString) : Bool := utf8.validLoop s.length s

/-- The function `utf16.IsSurrogate`. -/
def utf16.IsSurrogate (r : Nat) : Bool := 0xD800 ≤ r && r < 0xE000

/-- The function `utf16.DecodeRune`, with `none` for a missing second half. -/
def utf16.DecodeRune (r1 : Nat) (r2 : Option Nat) : Nat :=
  match r2 with
  | some r2 =>
    if 0xD800 ≤ r1 ∧ r1 < 0xDC00 ∧ 0xDC00 ≤ r2 ∧ r2 < 0xE000 then
      (r1 - 0xD800) * 1024 + (r2 - 0xDC00) + 0x10000
    else utf8.RuneError
  | none => utf8.RuneError

/-! ## `encoding/json`: encoding -/

/-- The table `htmlSafeSet`, for a byte below `utf8.RuneSelf`: every ASCII
character from the space on, except the quote, `&`, `<`, `>` and the backslash. -/
def json.htmlSafeSet (b : Nat) : Bool :=
  0x20 ≤ b && b ≠ 0x22 && b ≠ 0x26 && b ≠ 0x3C && b ≠ 0x3E && b ≠ 0x5C

/-- The escape `encodeState.string` writes for an ASCII byte outside `htmlSafeSet`. -/
def json.escapeByte (b : Byte) : GoString :=
  if b.val = 0x5C ∨ b.val = 0x22 then [0x5C, b]
  else if b.val = 0x0A then [0x5C, 0x6E]
  else if b.val = 0x0D then [0x5C, 0x72]
  else if b.val = 0x09 then [0x5C, 0x74]
  else [0x5C, 0x75, 0x30, 0x30, hextable (b.val / 16), hextable (b.val % 16)]

/-- The loop of `encodeState.string` with `escapeHTML` set: what is written
between the quotes. -/
def json.encodeStringBody : Nat → GoString → GoString
  | _, [] => []
  | 0, _ :: _ => []
  | steps + 1, b :: s =>
    if b.val < 0x80 then
      (if json.htmlSafeSet b.val then [b] else json.escapeByte b)
        ++ json.encodeStringBody steps s
    else
      let d := utf8.DecodeRune (b :: s)
      if d.1 = utf8.RuneError ∧ d.2 = 1 then
        [0x5C, 0x75, 0x66, 0x66, 0x66, 0x64] ++ json.encodeStringBody steps s
      else if d.1 = 0x2028 ∨ d.1 = 0x2029 then
        [0x5C, 0x75, 0x32, 0x30, 0x32, hextable (d.1 % 16)]
          ++ json.encodeStringBody steps ((b :: s).drop d.2)
      else
        (b :: s).take d.2 ++ json.encodeStringBody steps ((b :: s).drop d.2)

/-- The method `encodeState.string(s, true)`: a JSON string literal. -/
def json.encodeString (s : GoString) : GoString :=
  [0x22] ++ json.encodeStringBody s.length s ++ [0x22]

/-- The elements of an array as `arrayEncoder` writes them, separated by commas. -/
def json.encodeElements : List GoString → GoString
  | [] => []
  | [s] => json.encodeString s
  | s :: t :: rest => json.encodeString s ++ [0x2C] ++ json.encodeElements (t :: rest)

/-- The encoder of a `[]string`: `null` for a nil slice, else the array. -/
def json.encodeStringSlice : StringSlice → GoString
  | none => ascii "null"
  | some elems => [0x5B] ++ json.encodeElements elems ++ [0x5D]

/-- The fields of `CustomRule`, in declaration order. -/
inductive Field where
  | ID | Name | Description | Language | Severity | Confidence | Type_ | Expressions
  deriving DecidableEq, Repr

/-- The name of a field in the JSON text (its `json` tag). -/
def Field.name : Field → GoString
  | .ID => ascii "id"
  | .Name => ascii "name"
  | .Description => ascii "description"
  | .Language => ascii "language"
  | .Severity => ascii "severity"
  | .Confidence => ascii "confidence"
  | .Type_ => ascii "type"
  | .Expressions => ascii "expressions"

/-- The field list the encoder and the decoder walk. -/
def json.fields : List Field :=
  [.ID, .Name, .Description, .Language, .Severity, .Confidence, .Type_, .Expressions]

/-- The name of a field as the struct encoder writes it: quoted, then a colon. -/
def json.encodeName (f : Field) : GoString := json.encodeString f.name ++ [0x3A]

/-- The call `json.Marshal(c)`: the struct encoder on the eight fields. -/
def json.Marshal (c : CustomRule) : GoString :=
  [0x7B] ++ json.encodeName .ID ++ json.encodeString c.ID.MarshalText ++
  [0x2C] ++ json.encodeName .Name ++ json.encodeString c.Name ++
  [0x2C] ++ json.encodeName .Description ++ json.encodeString c.Description ++
  [0x2C] ++ json.encodeName .Language ++ json.encodeString c.Language ++
  [0x2C] ++ json.encodeName .Severity ++ json.encodeString c.Severity ++
  [0x2C] ++ json.encodeName .Confidence ++ json.encodeString c.Confidence ++
  [0x2C] ++ json.encodeName .Type_ ++ json.encodeString c.Type_ ++
  [0x2C] ++ json.encodeName .Expressions ++ json.encodeStringSlice c.Expressions ++
  [0x7D]

/-- The method `CustomRule.ToString`. -/
def CustomRule.ToString (c : CustomRule) : GoString := json.Marshal c

/-! ## `encoding/json`: decoding -/

/-- A JSON value as the decoder reads it; strings and member names are held
unquoted, numbers as their literal. -/
inductive JSON where
  | null
  | bool (b : Bool)
  | number (literal : GoString)
  | string (s : GoString)
  | array (elems : List JSON)
  | object (members : List (GoString × JSON))

/-- The function `isSpace` of the scanner. -/
def json.isSpace (c : Byte) : Bool :=
  c.val = 0x20 || c.val = 0x09 || c.val = 0x0D || c.val = 0x0A

/-- Skip insignificant whitespace. -/
def json.skipSpace : List Byte → List Byte
  | [] => []
  | c :: s => if json.isSpace c then json.skipSpace s else c :: s

/-- The value of a hexadecimal digit, as `getu4` reads it. -/
def json.hexValue (c : Byte) : Option Nat :=
  if 0x30 ≤ c.val ∧ c.val ≤ 0x39 then some (c.val - 0x30)
  else if 0x61 ≤ c.val ∧ c.val ≤ 0x66 then some (c.val - 0x61 + 10)
  else if 0x41 ≤ c.val ∧ c.val ≤ 0x46 then some (c.val - 0x41 + 10)
  else none

/-- The function `getu4`: the rune of a `\uXXXX` at the head of `s`, `none` for
the result `-1`. -/
def json.getu4 (s : List Byte) : Option Nat :=
  match s with
  | c0 :: c1 :: h0 :: h1 :: h2 :: h3 :: _ =>
    if c0.val = 0x5C ∧ c1.val = 0x75 then
      match json.hexValue h0, json.hexValue h1, json.hexValue h2, json.hexValue h3 with
      | some v0, some v1, some v2, some v3 => some (((v0 * 16 + v1) * 16 + v2) * 16 + v3)
      | _, _, _, _ => none
    else none
  | _ => none

/-- The byte a one-character escape stands for, `none` when the scanner rejects
the character after the backslash. -/
def json.simpleEscape (c : Byte) : Option Byte :=
  if c.val = 0x22 ∨ c.val = 0x5C ∨ c.val = 0x2F then some c
  else if c.val = 0x62 then some 0x08
  else if c.val = 0x66 then some 0x0C
  else if c.val = 0x6E then some 0x0A
  else if c.val = 0x72 then some 0x0D
  else if c.val = 0x74 then some 0x09
  else none

/-- A string literal after its opening quote: the scanner's string states
together with `unquoteBytes`.  The result is the unquoted string and the input
after the closing quote; `none` is a syntax error. -/
def json.unquote : Nat → List Byte → Option (GoString × List Byte)
  | 0, _ => none
  | _ + 1, [] => none
  | steps + 1, c :: s =>
    if c.val = 0x22 then some ([], s)
    else if c.val = 0x5C then
      match s with
      | [] => none
      | e :: s1 =>
        if e.val = 0x75 then
          match json.getu4 (c :: s) with
          | none => none
          | some rr =>
            let s2 := s1.drop 4
            if utf16.IsSurrogate rr then
              let dec := utf16.DecodeRune rr (json.getu4 s2)
              if dec ≠ utf8.RuneError then
                (json.unquote steps (s2.drop 6)).map
                  (fun r => (utf8.EncodeRune dec ++ r.1, r.2))
              else
                (json.unquote steps s2).map
                  (fun r => (utf8.EncodeRune utf8.RuneError ++ r.1, r.2))
            else
              (json.unquote steps s2).map (fun r => (utf8.EncodeRune rr ++ r.1, r.2))
        else
          match json.simpleEscape e with
          | none => none
          | some b => (json.unquote steps s1).map (fun r => (b :: r.1, r.2))
    else if c.val < 0x20 then none
    else if c.val < 0x80 then (json.unquote steps s).map (fun r => (c :: r.1, r.2))
    else
      let d := utf8.DecodeRune (c :: s)
      (json.unquote steps ((c :: s).drop d.2)).map
        (fun r => (utf8.EncodeRune d.1 ++ r.1, r.2))

/-- A string literal at the head of the input, opening quote included. -/
def json.parseString (s : List Byte) : Option (GoString × List Byte) :=
  match s with
  | c :: t => if c.val = 0x22 then json.unquote t.length t else none
  | [] => none

/-- Whether a byte is a decimal digit. -/
def json.isDigit (c : Byte) : Bool := 0x30 ≤ c.val && c.val ≤ 0x39

/-- Split off the leading digits. -/
def json.digits : List Byte → GoString × List Byte
  | [] => ([], [])
  | c :: s =>
    if json.isDigit c then ((json.digits s).1.cons c, (json.digits s).2) else ([], c :: s)

/-- The exponent of a number, after the digits of the integer or fraction part:
the scanner's states `stateE`, `stateESign`, `stateE0`. -/
def json.parseExponent (s : List Byte) : Option (GoString × List Byte) :=
  match s with
  | e :: t =>
    if e.val = 0x65 ∨ e.val = 0x45 then
      match t with
      | sign :: u =>
        if sign.val = 0x2B ∨ sign.val = 0x2D then
          (match json.digits u with
            | ([], _) => none
            | (ds, rest) => some (e :: sign :: ds, rest))
        else
          (match json.digits t with
            | ([], _) => none
            | (ds, rest) => some (e :: ds, rest))
      | [] => none
    else some ([], s)
  | [] => some ([], s)

/-- The fraction and exponent of a number: the scanner's states after `state0`
and `state1`. -/
def json.parseFraction (s : List Byte) : Option (GoString × List Byte) :=
  match s with
  | dot :: t =>
    if dot.val = 0x2E then
      match json.digits t with
      | ([], _) => none
      | (ds, rest) => (json.parseExponent rest).map (fun r => (dot :: ds ++ r.1, r.2))
    else json.parseExponent s
  | [] => some ([], s)

/-- The integer part of a number after the optional sign: `0`, or a non-zero
digit followed by digits. -/
def json.parseInteger (s : List Byte) : Option (GoString × List Byte) :=
  match s with
  | c :: t =>
    if c.val = 0x30 then (json.parseFraction t).map (fun r => (c :: r.1, r.2))
    else if 0x31 ≤ c.val ∧ c.val ≤ 0x39 then
      (json.parseFraction (json.digits t).2).map (fun r => (c :: (json.digits t).1 ++ r.1, r.2))
    else none
  | [] => none

/-- A number literal at the head of the input. -/
def json.parseNumber (s : List Byte) : Option (GoString × List Byte) :=
  match s with
  | c :: t =>
    if c.val = 0x2D then (json.parseInteger t).map (fun r => (c :: r.1, r.2))
    else json.parseInteger s
  | [] => none

/-- Match a fixed word at the head of the input. -/
def json.expect : GoString → List Byte → Option (List Byte)
  | [], s => some s
  | _ :: _, [] => none
  | w :: word, c :: s => if c = w then json.expect word s else none

/-- A value that opens no array or object: a string, a number, `true`, `false`
or `null`. -/
def json.parseScalar (s : List Byte) : Option (JSON × List Byte) :=
  match s with
  | [] => none
  | c :: t =>
    if c.val = 0x22 then (json.parseString s).map (fun r => (JSON.string r.1, r.2))
    else if c.val = 0x2D ∨ json.isDigit c then
      (json.parseNumber s).map (fun r => (JSON.number r.1, r.2))
    else if c.val = 0x74 then (json.expect (ascii "rue") t).map (fun r => (JSON.bool true, r))
    else if c.val = 0x66 then (json.expect (ascii "alse") t).map (fun r => (JSON.bool false, r))
    else if c.val = 0x6E then (json.expect (ascii "ull") t).map (fun r => (JSON.null, r))
    else none

/-- The elements of an array after the first byte of an element has been seen:
a value, then a comma and more elements, or the closing bracket. -/
def json.parseElements (value : List Byte → Option (JSON × List Byte)) :
    Nat → List Byte → Option (List JSON × List Byte)
  | 0, _ => none
  | steps + 1, s =>
    match value s with
    | none => none
    | some (v, rest) =>
      match json.skipSpace rest with
      | c :: t =>
        if c.val = 0x2C then
          (json.parseElements value steps (json.skipSpace t)).map (fun r => (v :: r.1, r.2))
        else if c.val = 0x5D then some ([v], t)
        else none
      | [] => none

/-- The members of an object, at the opening quote of a member name: the name, a
colon, a value, then a comma and more members, or the closing brace. -/
def json.parseMembers (value : List Byte → Option (JSON × List Byte)) :
    Nat → List Byte → Option (List (GoString × JSON) × List Byte)
  | 0, _ => none
  | steps + 1, s =>
    match json.parseString s with
    | none => none
    | some (key, rest) =>
      match json.skipSpace rest with
      | colon :: t =>
        if colon.val = 0x3A then
          match value (json.skipSpace t) with
          | none => none
          | some (v, rest) =>
            match json.skipSpace rest with
            | c :: t =>
              if c.val = 0x2C then
                (json.parseMembers value steps (json.skipSpace t)).map
                  (fun r => ((key, v) :: r.1, r.2))
              else if c.val = 0x7D then some ([(key, v)], t)
              else none
            | [] => none
        else none
      | [] => none

/-- A value at the head of the input (no leading whitespace), with `depth` more
levels of arrays and objects allowed to open (`maxNestingDepth` bounds the
nesting). -/
def json.parseValue : Nat → List Byte → Option (JSON × List Byte)
  | 0, s =>
    match s with
    | c :: _ => if c.val = 0x5B ∨ c.val = 0x7B then none else json.parseScalar s
    | [] => none
  | depth + 1, s =>
    match s with
    | c :: t =>
      if c.val = 0x5B then
        match json.skipSpace t with
        | c1 :: t1 =>
          if c1.val = 0x5D then some (JSON.array [], t1)
          else (json.parseElements (json.parseValue depth) (t.length) (c1 :: t1)).map
            (fun r => (JSON.array r.1, r.2))
        | [] => none
      else if c.val = 0x7B then
        match json.skipSpace t with
        | c1 :: t1 =>
          if c1.val = 0x7D then some (JSON.object [], t1)
          else (json.parseMembers (json.parseValue depth) (t.length) (c1 :: t1)).map
            (fun r => (JSON.object r.1, r.2))
        | [] => none
      else json.parseScalar s
    | [] => none

/-- The constant `maxNestingDepth` of the scanner. -/
def json.maxNestingDepth : Nat := 10000

/-- The function `checkValid` together with the reading of the value: the whole
input is one JSON value between optional whitespace. -/
def json.parse (data : List Byte) : Option JSON :=
  match json.parseValue json.maxNestingDepth (json.skipSpace data) with
  | some (v, rest) => if json.skipSpace rest = [] then some v else none
  | none => none
/-! ## `encoding/json`: decoding into a `CustomRule` -/

/-- A byte with `caseMask` applied (bit 5 cleared). -/
def json.foldCase (b : Byte) : Nat := b.val / 64 * 64 + b.val % 32

/-- The function `simpleLetterEqualFold`, for a name of ASCII letters without
`k` and `s`. -/
def json.simpleLetterEqualFold : GoString → GoString → Bool
  | [], [] => true
  | sb :: s, tb :: t => json.foldCase sb = json.foldCase tb && json.simpleLetterEqualFold s t
  | _, _ => false

/-- The function `equalFoldRight`, for an ASCII name with `k` or `s`: the key may
spell them with the Kelvin sign (U+212A) or the long s (U+017F). -/
def json.equalFoldRight : GoString → GoString → Bool
  | [], t => t.length == 0
  | _ :: _, [] => false
  | sb :: s, tb :: t =>
    if tb.val < 0x80 then
      if sb ≠ tb then
        (0x41 ≤ json.foldCase sb && json.foldCase sb ≤ 0x5A
          && json.foldCase sb = json.foldCase tb) && json.equalFoldRight s t
      else json.equalFoldRight s t
    else
      let d := utf8.DecodeRune (tb :: t)
      if sb.val = 0x73 ∨ sb.val = 0x53 then
        d.1 = 0x17F && json.equalFoldRight s (t.drop (d.2 - 1))
      else if sb.val = 0x6B ∨ sb.val = 0x4B then
        d.1 = 0x212A && json.equalFoldRight s (t.drop (d.2 - 1))
      else false

/-- The function `foldFunc`, for a name of ASCII letters: `equalFoldRight` when
the name has a `k` or an `s`, else `simpleLetterEqualFold`. -/
def json.foldFunc (name : GoString) : GoString → GoString → Bool :=
  if name.any (fun b => json.foldCase b = 0x4B ∨ json.foldCase b = 0x53) then json.equalFoldRight
  else json.simpleLetterEqualFold

/-- The field a member name selects: the field with exactly that name, else the
first field whose name equals it under case folding; `none` when the member is
skipped. -/
def json.findField (key : GoString) : Option Field :=
  match json.fields.find? (fun f => f.name = key) with
  | some f => some f
  | none => json.fields.find? (fun f => json.foldFunc f.name f.name key)

/-- A `[]string` while the decoder fills it: the backing array (its length is
the capacity) and the length of the slice. -/
structure SliceState where
  backing : List GoString
  len : Nat

/-- The struct the decoder fills: a `CustomRule` whose slice is held with its
backing array. -/
structure Target where
  ID : UUID
  Name : GoString
  Description : GoString
  Language : GoString
  Severity : GoString
  Confidence : GoString
  Type_ : GoString
  Expressions : Option SliceState

/-- The zero value of `CustomRule`, the target `Unmarshal` starts from. -/
def Target.zero : Target :=
  ⟨uuid.Nil, [], [], [], [], [], [], none⟩

/-- The `CustomRule` a filled target is. -/
def Target.toRule (t : Target) : CustomRule :=
  { ID := t.ID, Name := t.Name, Description := t.Description, Language := t.Language,
    Severity := t.Severity, Confidence := t.Confidence, Type_ := t.Type_,
    Expressions := t.Expressions.map (fun v => v.backing.take v.len) }

/-- Store a value into a field of string kind: a string is assigned, `null`
leaves the field as it is, anything else is an `UnmarshalTypeError` (`none`). -/
def json.storeString (v : JSON) (cur : GoString) : Option GoString :=
  match v with
  | .string s => some s
  | .null => some cur
  | _ => none

/-- Store a value into the `uuid.UUID` field: a string goes through
`UnmarshalText`, `null` leaves the field as it is, anything else is an error. -/
def json.storeUUID (v : JSON) (cur : UUID) : Option UUID :=
  match v with
  | .string s => UUID.UnmarshalText s
  | .null => some cur
  | _ => none

/-- Growing the slice before element `i` is stored, as `decodeState.array` does:
a new backing array of one and a half times the capacity (at least 4) when `i`
is beyond the capacity, and a length of at least `i + 1`. -/
def json.growSlice (i : Nat) (v : SliceState) : SliceState :=
  let v1 : SliceState :=
    if i ≥ v.backing.length then
      let newcap := if v.backing.length + v.backing.length / 2 < 4 then 4
        else v.backing.length + v.backing.length / 2
      ⟨v.backing.take v.len ++ List.replicate (newcap - v.len) [], v.len⟩
    else v
  if i ≥ v1.len then ⟨v1.backing, i + 1⟩ else v1

/-- The element loop of `decodeState.array` on a slice of strings. -/
def json.storeElements : List JSON → Nat → SliceState → Option SliceState
  | [], _, v => some v
  | e :: es, i, v =>
    let v1 := json.growSlice i v
    match json.storeString e (v1.backing.getD i []) with
    | none => none
    | some s => json.storeElements es (i + 1) ⟨v1.backing.set i s, v1.len⟩

/-- Store a value into the `[]string` field: `null` makes the slice nil, an array
is decoded element by element into the slice there is (truncated to the number
of elements read, and a fresh empty slice for an empty array), anything else is
an error. -/
def json.storeSlice (v : JSON) (cur : Option SliceState) : Option (Option SliceState) :=
  match v with
  | .null => some none
  | .array elems =>
    match json.storeElements elems 0 (cur.getD ⟨[], 0⟩) with
    | none => none
    | some v1 =>
      if elems.length = 0 then some (some ⟨[], 0⟩)
      else if elems.length < v1.len then some (some ⟨v1.backing, elems.length⟩)
      else some (some v1)
  | _ => none

/-- Store a member's value into the field its name selected. -/
def json.storeField (f : Field) (v : JSON) (t : Target) : Option Target :=
  match f with
  | .ID => (json.storeUUID v t.ID).map (fun x => { t with ID := x })
  | .Name => (json.storeString v t.Name).map (fun x => { t with Name := x })
  | .Description => (json.storeString v t.Description).map (fun x => { t with Description := x })
  | .Language => (json.storeString v t.Language).map (fun x => { t with Language := x })
  | .Severity => (json.storeString v t.Severity).map (fun x => { t with Severity := x })
  | .Confidence => (json.storeString v t.Confidence).map (fun x => { t with Confidence := x })
  | .Type_ => (json.storeString v t.Type_).map (fun x => { t with Type_ := x })
  | .Expressions => (json.storeSlice v t.Expressions).map (fun x => { t with Expressions := x })

/-- The member loop of `decodeState.object` on a struct: members are stored in
the order of the text; a member that selects no field is skipped. -/
def json.storeMembers : List (GoString × JSON) → Target → Option Target
  | [], t => some t
  | (key, v) :: rest, t =>
    match json.findField key with
    | none => json.storeMembers rest t
    | some f =>
      match json.storeField f v t with
      | none => none
      | some t1 => json.storeMembers rest t1

/-- The call `json.Unmarshal(data, &rule)` on a zero `rule`: the rule after the
call, or `none` when `Unmarshal` returns an error (a syntax error, a value of
the wrong type for its field, or an identifier that does not parse). -/
def json.Unmarshal (data : GoString) : Option CustomRule :=
  match json.parse data with
  | none => none
  | some (.object members) => (json.storeMembers members Target.zero).map Target.toRule
  | some .null => some Target.zero.toRule
  | some _ => none

/-! ## Rules used as examples -/

/-- The rule of the spec's scenario: `type=And`, two expressions, valid metadata. -/
def andRule : CustomRule where
  ID := ⟨[0x5e, 0x8f, 0x1c, 0x2a, 0x11, 0x22, 0x4b, 0x3c, 0x9d, 0x0e, 0xa1, 0xb2, 0xc3, 0xd4,
    0xe5, 0xf6], by decide⟩
  Name := ascii "password"
  Description := ascii "hard-coded password"
  Language := languages.Leaks
  Severity := severities.High
  Confidence := confidence.Medium
  Type_ := customRulesEnums.AndMatch
  Expressions := some [ascii "^password=", ascii "[0-9]\x7b4,\x7d"]

/-- The scenario rule with other free fields and the single expression `(unclosed`. -/
def unclosedRule : CustomRule :=
  { andRule with Name := ascii "n", Description := [], Expressions := some [ascii "(unclosed"] }

/-- The scenario rule with `(unclosed` between its two expressions. -/
def mixedRule : CustomRule :=
  { andRule with
    Expressions := some [ascii "^password=", ascii "(unclosed", ascii "[0-9]\x7b4,\x7d"] }

/-- The scenario rule with a name that is not valid UTF-8: the single byte `0xFF`. -/
def invalidNameRule : CustomRule :=
  { andRule with Name := [0xFF] }

/-! ## Definitions used to state the lemmas -/

/-- What `Required` followed by `In` says about a string field. -/
def fieldError (allowed : List GoString) (s : GoString) : Option RuleError :=
  if s = [] then some .ErrRequired
  else if s ∈ allowed then none
  else some .ErrInInvalid

/-- The entries `Validate` collects, in field order. -/
def fieldErrors (c : CustomRule) : Errors :=
  ((fieldError allowedLanguages c.Language).map (fun e => ("language", e))).toList ++
  ((fieldError allowedSeverities c.Severity).map (fun e => ("severity", e))).toList ++
  ((fieldError allowedConfidences c.Confidence).map (fun e => ("confidence", e))).toList ++
  ((fieldError allowedTypes c.Type_).map (fun e => ("type", e))).toList

/-- The shapes of a well-formed multi-byte sequence at the head of a string. -/
def WellFormedAt (p : List Byte) (r n : Nat) : Prop :=
  (∃ p0 b1 t, p = p0 :: b1 :: t ∧ n = 2 ∧ 0xC2 ≤ p0.val ∧ p0.val ≤ 0xDF ∧
      0x80 ≤ b1.val ∧ b1.val ≤ 0xBF ∧ r = (p0.val % 32) * 64 + b1.val % 64) ∨
  (∃ p0 b1 b2 t, p = p0 :: b1 :: b2 :: t ∧ n = 3 ∧ 0xE0 ≤ p0.val ∧ p0.val ≤ 0xEF ∧
      0x80 ≤ b1.val ∧ b1.val ≤ 0xBF ∧ (p0.val = 0xE0 → 0xA0 ≤ b1.val) ∧
      (p0.val = 0xED → b1.val ≤ 0x9F) ∧ 0x80 ≤ b2.val ∧ b2.val ≤ 0xBF ∧
      r = (p0.val % 16) * 4096 + (b1.val % 64) * 64 + b2.val % 64) ∨
  (∃ p0 b1 b2 b3 t, p = p0 :: b1 :: b2 :: b3 :: t ∧ n = 4 ∧ 0xF0 ≤ p0.val ∧ p0.val ≤ 0xF4 ∧
      0x80 ≤ b1.val ∧ b1.val ≤ 0xBF ∧ (p0.val = 0xF0 → 0x90 ≤ b1.val) ∧
      (p0.val = 0xF4 → b1.val ≤ 0x8F) ∧ 0x80 ≤ b2.val ∧ b2.val ≤ 0xBF ∧
      0x80 ≤ b3.val ∧ b3.val ≤ 0xBF ∧
      r = (p0.val % 8) * 262144 + (b1.val % 64) * 4096 + (b2.val % 64) * 64 + b3.val % 64)

/-- A text that the decoder reads as a given value, whatever follows it, and
that does not start with whitespace. -/
def Renders (text : GoString) (v : JSON) : Prop :=
  (∃ c t, text = c :: t ∧ json.isSpace c = false) ∧
  ∀ depth rest, json.parseValue (depth + 1) (text ++ rest) = some (v, rest)

/-- The value the decoder reads for an encoded slice. -/
def sliceValue : StringSlice → JSON
  | none => JSON.null
  | some elems => JSON.array (elems.map JSON.string)

/-- The members the decoder reads from the text `Marshal` writes for a rule. -/
def membersOf (c : CustomRule) : List (GoString × JSON) :=
  [(Field.ID.name, JSON.string c.ID.MarshalText),
   (Field.Name.name, JSON.string c.Name),
   (Field.Description.name, JSON.string c.Description),
   (Field.Language.name, JSON.string c.Language),
   (Field.Severity.name, JSON.string c.Severity),
   (Field.Confidence.name, JSON.string c.Confidence),
   (Field.Type_.name, JSON.string c.Type_),
   (Field.Expressions.name, sliceValue c.Expressions)]

/-- The condition under which the text of a rule reads back: every string in it
is valid UTF-8. -/
def ValidStrings (c : CustomRule) : Prop :=
  utf8.ValidString c.Name = true ∧ utf8.ValidString c.Description = true ∧
  utf8.ValidString c.Language = true ∧ utf8.ValidString c.Severity = true ∧
  utf8.ValidString c.Confidence = true ∧ utf8.ValidString c.Type_ = true ∧
  ∀ x ∈ c.Expressions.range, utf8.ValidString x = true

/-! # Theorems -/

/-! ## Validation: the identifier field -/

theorem isLowerHex_hextable (n : Nat) (h : n < 16) : isLowerHex (hextable n) = true := by
  interval_cases n <;> decide

theorem matchHexRun_encode (src : List Byte) (rest : GoString) :
    matchHexRun (2 * src.length) (hex.Encode src ++ rest) = some rest := by
  induction src with
  | nil => simp [hex.Encode, matchHexRun]
  | cons v src ih =>
    have h1 : isLowerHex (hextable (v.val / 16)) = true := isLowerHex_hextable _ (by omega)
    have h2 : isLowerHex (hextable (v.val % 16)) = true := isLowerHex_hextable _ (by omega)
    have e : 2 * (v :: src).length = (2 * src.length + 1) + 1 := by simp; omega
    rw [e]
    simp only [hex.Encode, List.flatMap_cons, List.cons_append, List.nil_append, matchHexRun, h1,
      h2, if_true] at ih ⊢
    exact ih

theorem IsUUID_String (u : UUID) : govalidator.IsUUID u.String = true := by
  obtain ⟨l, hl⟩ := u
  have a1 := matchHexRun_encode (l.take 4)
  have a2 := matchHexRun_encode ((l.drop 4).take 2)
  have a3 := matchHexRun_encode ((l.drop 6).take 2)
  have a4 := matchHexRun_encode ((l.drop 8).take 2)
  have a5 := matchHexRun_encode (l.drop 10) []
  simp only [List.length_take, List.length_drop, hl] at a1 a2 a3 a4 a5
  simp only [govalidator.IsUUID, UUID.String, uuid.encodeHex, List.append_assoc]
  norm_num at a1 a2 a3 a4 a5
  simp [a1, a2, a3, a4, a5, matchDash]

theorem String_length_pos (u : UUID) : u.String ≠ [] := by
  intro h
  have := IsUUID_String u
  rw [h] at this
  revert this
  decide

theorem validate_id (u : UUID) :
    validation.Validate (.uuid u) [validation.Required, is.UUID] = none := by
  have h := String_length_pos u
  have h2 := IsUUID_String u
  simp [validation.Validate, validation.Required, is.UUID, validation.StringRule,
    validation.Indirect, validation.IsEmpty, validation.EnsureString, UUID.Value, h, h2]

/-! ## Validation: the enumerated fields -/

theorem validate_enum (t : String) (allowed : List GoString) (s : GoString) :
    validation.Validate (.string t s) [validation.Required, validation.In (allowed.map (.string t))]
      = fieldError allowed s := by
  by_cases hs : s = []
  · simp [validation.Validate, validation.Required, validation.Indirect, validation.IsEmpty,
      fieldError, hs]
  · by_cases hm : s ∈ allowed
    · simp [validation.Validate, validation.Required, validation.In, validation.Indirect,
        validation.IsEmpty, fieldError, hs, hm]
    · simp [validation.Validate, validation.Required, validation.In, validation.Indirect,
        validation.IsEmpty, fieldError, hs, hm]

theorem entry_ValidateStruct (fields : List FieldRules) (f : String) :
    entry (validation.ValidateStruct fields) f = (validation.collect fields).lookup f := by
  unfold validation.ValidateStruct entry
  cases h : validation.collect fields <;> simp

theorem Validate_eq (c : CustomRule) :
    c.Validate = if (fieldErrors c).length > 0 then some (fieldErrors c) else none := by
  simp only [CustomRule.Validate, validation.ValidateStruct, validation.collect, validate_id,
    validate_enum, fieldErrors]
  cases fieldError allowedLanguages c.Language <;> cases fieldError allowedSeverities c.Severity <;>
    cases fieldError allowedConfidences c.Confidence <;> cases fieldError allowedTypes c.Type_ <;>
    rfl

theorem entry_Validate_eq (c : CustomRule) (f : String) :
    entry c.Validate f = (fieldErrors c).lookup f := by
  rw [Validate_eq]
  cases h : fieldErrors c <;> simp [entry]

theorem entry_Validate (c : CustomRule) :
    entry c.Validate "id" = none ∧
    entry c.Validate "language" = fieldError allowedLanguages c.Language ∧
    entry c.Validate "severity" = fieldError allowedSeverities c.Severity ∧
    entry c.Validate "confidence" = fieldError allowedConfidences c.Confidence ∧
    entry c.Validate "type" = fieldError allowedTypes c.Type_ := by
  simp only [entry_Validate_eq, fieldErrors]
  cases fieldError allowedLanguages c.Language <;> cases fieldError allowedSeverities c.Severity <;>
    cases fieldError allowedConfidences c.Confidence <;> cases fieldError allowedTypes c.Type_ <;>
    simp +decide [List.lookup]

theorem Validate_eq_none_iff (c : CustomRule) :
    c.Validate = none ↔
      fieldError allowedLanguages c.Language = none ∧
      fieldError allowedSeverities c.Severity = none ∧
      fieldError allowedConfidences c.Confidence = none ∧
      fieldError allowedTypes c.Type_ = none := by
  rw [Validate_eq, fieldErrors]
  cases fieldError allowedLanguages c.Language <;> cases fieldError allowedSeverities c.Severity <;>
    cases fieldError allowedConfidences c.Confidence <;> cases fieldError allowedTypes c.Type_ <;>
    simp

theorem fieldError_eq_none_iff (allowed : List GoString) (s : GoString) :
    fieldError allowed s = none ↔ s ≠ [] ∧ s ∈ allowed := by
  unfold fieldError
  by_cases hs : s = [] <;> by_cases hm : s ∈ allowed <;> simp [hs, hm]

theorem fieldError_isSome_iff (allowed : List GoString) (s : GoString) :
    (fieldError allowed s).isSome = true ↔ s = [] ∨ s ∉ allowed := by
  unfold fieldError
  by_cases hs : s = [] <;> by_cases hm : s ∈ allowed <;> simp [hs, hm]

/-! ## UTF-8: decoding a well-formed sequence -/

theorem first_cases (b : Nat) (hb : 0x80 ≤ b) :
    (utf8.first b = 0xF1) ∨
    (0xC2 ≤ b ∧ b ≤ 0xDF ∧ utf8.first b = 0x02) ∨
    (b = 0xE0 ∧ utf8.first b = 0x13) ∨
    (0xE1 ≤ b ∧ b ≤ 0xEF ∧ b ≠ 0xED ∧ utf8.first b = 0x03) ∨
    (b = 0xED ∧ utf8.first b = 0x23) ∨
    (b = 0xF0 ∧ utf8.first b = 0x34) ∨
    (0xF1 ≤ b ∧ b ≤ 0xF3 ∧ utf8.first b = 0x04) ∨
    (b = 0xF4 ∧ utf8.first b = 0x44) := by
  obtain ⟨x, hx⟩ : ∃ x, utf8.first b = x := ⟨_, rfl⟩
  rw [hx]
  unfold utf8.first at hx
  split_ifs at hx <;> subst hx <;>
    simp only [Nat.reduceEqDiff, and_false, false_or, or_false, and_true, true_or, or_true] <;>
    omega

theorem DecodeRune_invalid (p0 : Byte) (t : List Byte) (hx : utf8.first p0.val = 0xF1) :
    utf8.DecodeRune (p0 :: t) = (utf8.RuneError, 1) := by
  simp [utf8.DecodeRune, hx]

theorem DecodeRune_two (p0 : Byte) (t : List Byte) (hx : utf8.first p0.val = 0x02) :
    utf8.DecodeRune (p0 :: t) =
      match t with
      | b1 :: _ =>
        if b1.val < 0x80 ∨ 0xBF < b1.val then (utf8.RuneError, 1)
        else ((p0.val % 32) * 64 + b1.val % 64, 2)
      | [] => (utf8.RuneError, 1) := by
  rcases t with _ | ⟨b1, t⟩ <;> simp [utf8.DecodeRune, hx, utf8.acceptRanges]

theorem DecodeRune_three (p0 : Byte) (t : List Byte) (x lo hi : Nat)
    (hx : utf8.first p0.val = x) (hsz : x % 8 = 3) (ha : utf8.acceptRanges (x / 16) = (lo, hi))
    (hx' : x < 0xF0) :
    utf8.DecodeRune (p0 :: t) =
      match t with
      | b1 :: b2 :: _ =>
        if b1.val < lo ∨ hi < b1.val then (utf8.RuneError, 1)
        else if b2.val < 0x80 ∨ 0xBF < b2.val then (utf8.RuneError, 1)
        else ((p0.val % 16) * 4096 + (b1.val % 64) * 64 + b2.val % 64, 3)
      | _ => (utf8.RuneError, 1) := by
  have hx'' : ¬ (240 ≤ x) := by omega
  rcases t with _ | ⟨b1, _ | ⟨b2, t⟩⟩ <;> simp [utf8.DecodeRune, hx, hsz, ha, hx'']

theorem DecodeRune_four (p0 : Byte) (t : List Byte) (x lo hi : Nat)
    (hx : utf8.first p0.val = x) (hsz : x % 8 = 4) (ha : utf8.acceptRanges (x / 16) = (lo, hi))
    (hx' : x < 0xF0) :
    utf8.DecodeRune (p0 :: t) =
      match t with
      | b1 :: b2 :: b3 :: _ =>
        if b1.val < lo ∨ hi < b1.val then (utf8.RuneError, 1)
        else if b2.val < 0x80 ∨ 0xBF < b2.val then (utf8.RuneError, 1)
        else if b3.val < 0x80 ∨ 0xBF < b3.val then (utf8.RuneError, 1)
        else ((p0.val % 8) * 262144 + (b1.val % 64) * 4096 + (b2.val % 64) * 64
                    + b3.val % 64, 4)
      | _ => (utf8.RuneError, 1) := by
  have hx'' : ¬ (240 ≤ x) := by omega
  rcases t with _ | ⟨b1, _ | ⟨b2, _ | ⟨b3, t⟩⟩⟩ <;> simp [utf8.DecodeRune, hx, hsz, ha, hx'']

theorem DecodeRune_wellFormed (b : Byte) (s : List Byte) (hb : 0x80 ≤ b.val)
    (h : ¬((utf8.DecodeRune (b :: s)).1 = utf8.RuneError ∧ (utf8.DecodeRune (b :: s)).2 = 1)) :
    WellFormedAt (b :: s) (utf8.DecodeRune (b :: s)).1 (utf8.DecodeRune (b :: s)).2 := by
  rcases first_cases b.val hb with hx | ⟨h1, h2, hx⟩ | ⟨h1, hx⟩ | ⟨h1, h2, h3, hx⟩ | ⟨h1, hx⟩ |
    ⟨h1, hx⟩ | ⟨h1, h2, hx⟩ | ⟨h1, hx⟩
  · rw [DecodeRune_invalid b s hx] at h
    simp at h
  · rw [DecodeRune_two b s hx] at h ⊢
    rcases s with _ | ⟨b1, t⟩
    · simp at h
    · simp only at h ⊢
      split_ifs at h ⊢ with hc
      · simp at h
      · left
        exact ⟨b, b1, t, rfl, rfl, h1, h2, by omega, by omega, rfl⟩
  · rw [DecodeRune_three b s 0x13 0xA0 0xBF hx (by norm_num) (by simp [utf8.acceptRanges])
      (by norm_num)] at h ⊢
    rcases s with _ | ⟨b1, _ | ⟨b2, t⟩⟩
    · simp at h
    · simp at h
    · simp only at h ⊢
      split_ifs at h ⊢ with hc hd
      · simp at h
      · simp at h
      · right; left
        exact ⟨b, b1, b2, t, rfl, rfl, by omega, by omega, by omega, by omega, by omega, by omega,
          by omega, by omega, rfl⟩
  · rw [DecodeRune_three b s 0x03 0x80 0xBF hx (by norm_num) (by simp [utf8.acceptRanges])
      (by norm_num)] at h ⊢
    rcases s with _ | ⟨b1, _ | ⟨b2, t⟩⟩
    · simp at h
    · simp at h
    · simp only at h ⊢
      split_ifs at h ⊢ with hc hd
      · simp at h
      · simp at h
      · right; left
        exact ⟨b, b1, b2, t, rfl, rfl, by omega, by omega, by omega, by omega, by omega, by omega,
          by omega, by omega, rfl⟩
  · rw [DecodeRune_three b s 0x23 0x80 0x9F hx (by norm_num) (by simp [utf8.acceptRanges])
      (by norm_num)] at h ⊢
    rcases s with _ | ⟨b1, _ | ⟨b2, t⟩⟩
    · simp at h
    · simp at h
    · simp only at h ⊢
      split_ifs at h ⊢ with hc hd
      · simp at h
      · simp at h
      · right; left
        exact ⟨b, b1, b2, t, rfl, rfl, by omega, by omega, by omega, by omega, by omega, by omega,
          by omega, by omega, rfl⟩
  · rw [DecodeRune_four b s 0x34 0x90 0xBF hx (by norm_num) (by simp [utf8.acceptRanges])
      (by norm_num)] at h ⊢
    rcases s with _ | ⟨b1, _ | ⟨b2, _ | ⟨b3, t⟩⟩⟩
    · simp at h
    · simp at h
    · simp at h
    · simp only at h ⊢
      split_ifs at h ⊢ with hc hd he
      · simp at h
      · simp at h
      · simp at h
      · right; right
        exact ⟨b, b1, b2, b3, t, rfl, rfl, by omega, by omega, by omega, by omega, by omega,
          by omega, by omega, by omega, by omega, by omega, rfl⟩
  · rw [DecodeRune_four b s 0x04 0x80 0xBF hx (by norm_num) (by simp [utf8.acceptRanges])
      (by norm_num)] at h ⊢
    rcases s with _ | ⟨b1, _ | ⟨b2, _ | ⟨b3, t⟩⟩⟩
    · simp at h
    · simp at h
    · simp at h
    · simp only at h ⊢
      split_ifs at h ⊢ with hc hd he
      · simp at h
      · simp at h
      · simp at h
      · right; right
        exact ⟨b, b1, b2, b3, t, rfl, rfl, by omega, by omega, by omega, by omega, by omega,
          by omega, by omega, by omega, by omega, by omega, rfl⟩
  · rw [DecodeRune_four b s 0x44 0x80 0x8F hx (by norm_num) (by simp [utf8.acceptRanges])
      (by norm_num)] at h ⊢
    rcases s with _ | ⟨b1, _ | ⟨b2, _ | ⟨b3, t⟩⟩⟩
    · simp at h
    · simp at h
    · simp at h
    · simp only at h ⊢
      split_ifs at h ⊢ with hc hd he
      · simp at h
      · simp at h
      · simp at h
      · right; right
        exact ⟨b, b1, b2, b3, t, rfl, rfl, by omega, by omega, by omega, by omega, by omega,
          by omega, by omega, by omega, by omega, by omega, rfl⟩

theorem first_eq (b x : Nat)
    (h : (0xC2 ≤ b ∧ b ≤ 0xDF ∧ x = 0x02) ∨ (b = 0xE0 ∧ x = 0x13) ∨
      (0xE1 ≤ b ∧ b ≤ 0xEF ∧ b ≠ 0xED ∧ x = 0x03) ∨ (b = 0xED ∧ x = 0x23) ∨
      (b = 0xF0 ∧ x = 0x34) ∨ (0xF1 ≤ b ∧ b ≤ 0xF3 ∧ x = 0x04) ∨ (b = 0xF4 ∧ x = 0x44)) :
    utf8.first b = x := by
  unfold utf8.first
  split_ifs <;> omega

/-- A well-formed sequence decodes to its rune whatever follows it. -/
theorem WellFormedAt.decode {p : List Byte} {r n : Nat} (h : WellFormedAt p r n)
    (t' : List Byte) : utf8.DecodeRune (p.take n ++ t') = (r, n) := by
  rcases h with ⟨p0, b1, t, rfl, rfl, h1, h2, h3, h4, rfl⟩ |
    ⟨p0, b1, b2, t, rfl, rfl, h1, h2, h3, h4, h5, h6, h7, h8, rfl⟩ |
    ⟨p0, b1, b2, b3, t, rfl, rfl, h1, h2, h3, h4, h5, h6, h7, h8, h9, h10, rfl⟩
  · have hx := first_eq p0.val 0x02 (by omega)
    simp only [List.take_succ_cons, List.take_zero, List.cons_append, List.nil_append]
    rw [DecodeRune_two p0 _ hx]
    simp only
    rw [if_neg (by omega)]
  · simp only [List.take_succ_cons, List.take_zero, List.cons_append, List.nil_append]
    by_cases e0 : p0.val = 0xE0
    · rw [DecodeRune_three p0 _ 0x13 0xA0 0xBF (first_eq _ _ (by omega)) (by norm_num)
        (by simp [utf8.acceptRanges]) (by norm_num)]
      simp only
      rw [if_neg (by have := h5 e0; omega), if_neg (by omega)]
    · by_cases ed : p0.val = 0xED
      · rw [DecodeRune_three p0 _ 0x23 0x80 0x9F (first_eq _ _ (by omega)) (by norm_num)
          (by simp [utf8.acceptRanges]) (by norm_num)]
        simp only
        rw [if_neg (by have := h6 ed; omega), if_neg (by omega)]
      · rw [DecodeRune_three p0 _ 0x03 0x80 0xBF (first_eq _ _ (by omega)) (by norm_num)
          (by simp [utf8.acceptRanges]) (by norm_num)]
        simp only
        rw [if_neg (by omega), if_neg (by omega)]
  · simp only [List.take_succ_cons, List.take_zero, List.cons_append, List.nil_append]
    by_cases e0 : p0.val = 0xF0
    · rw [DecodeRune_four p0 _ 0x34 0x90 0xBF (first_eq _ _ (by omega)) (by norm_num)
        (by simp [utf8.acceptRanges]) (by norm_num)]
      simp only
      rw [if_neg (by have := h5 e0; omega), if_neg (by omega), if_neg (by omega)]
    · by_cases ed : p0.val = 0xF4
      · rw [DecodeRune_four p0 _ 0x44 0x80 0x8F (first_eq _ _ (by omega)) (by norm_num)
          (by simp [utf8.acceptRanges]) (by norm_num)]
        simp only
        rw [if_neg (by have := h6 ed; omega), if_neg (by omega), if_neg (by omega)]
      · rw [DecodeRune_four p0 _ 0x04 0x80 0xBF (first_eq _ _ (by omega)) (by norm_num)
          (by simp [utf8.acceptRanges]) (by norm_num)]
        simp only
        rw [if_neg (by omega), if_neg (by omega), if_neg (by omega)]

/-- A well-formed sequence is what `EncodeRune` writes for its rune. -/
theorem WellFormedAt.encode {p : List Byte} {r n : Nat} (h : WellFormedAt p r n) :
    utf8.EncodeRune r = p.take n := by
  rcases h with ⟨p0, b1, t, rfl, rfl, h1, h2, h3, h4, rfl⟩ |
    ⟨p0, b1, b2, t, rfl, rfl, h1, h2, h3, h4, h5, h6, h7, h8, rfl⟩ |
    ⟨p0, b1, b2, b3, t, rfl, rfl, h1, h2, h3, h4, h5, h6, h7, h8, h9, h10, rfl⟩
  · have := p0.isLt
    have := b1.isLt
    unfold utf8.EncodeRune
    rw [if_neg (by omega), if_pos (by omega)]
    simp only [List.take_succ_cons, List.take_zero, List.cons.injEq, and_true]
    constructor <;> apply Fin.ext <;> simp [Fin.ofNat] <;> omega
  · have := p0.isLt
    have := b1.isLt
    have := b2.isLt
    unfold utf8.EncodeRune
    rw [if_neg (by omega), if_neg (by omega), if_neg (by omega), if_pos (by omega)]
    simp only [List.take_succ_cons, List.take_zero, List.cons.injEq, and_true]
    refine ⟨?_, ?_, ?_⟩ <;> apply Fin.ext <;> simp [Fin.ofNat] <;> omega
  · have := p0.isLt
    have := b1.isLt
    have := b2.isLt
    have := b3.isLt
    unfold utf8.EncodeRune
    rw [if_neg (by omega), if_neg (by omega), if_neg (by omega), if_neg (by omega)]
    simp only [List.take_succ_cons, List.take_zero, List.cons.injEq, and_true]
    refine ⟨?_, ?_, ?_, ?_⟩ <;> apply Fin.ext <;> simp [Fin.ofNat] <;> omega

theorem WellFormedAt.size {p : List Byte} {r n : Nat} (h : WellFormedAt p r n) :
    2 ≤ n ∧ n ≤ p.length ∧ 0x80 ≤ r ∧ ¬ (r = utf8.RuneError ∧ n = 1) := by
  rcases h with ⟨p0, b1, t, rfl, rfl, h1, h2, h3, h4, rfl⟩ |
    ⟨p0, b1, b2, t, rfl, rfl, h1, h2, h3, h4, h5, h6, h7, h8, rfl⟩ |
    ⟨p0, b1, b2, b3, t, rfl, rfl, h1, h2, h3, h4, h5, h6, h7, h8, h9, h10, rfl⟩ <;>
  · simp only [List.length_cons]
    refine ⟨by omega, by omega, by omega, by omega⟩

/-! ## Strings: what the decoder reads back from what the encoder wrote -/

theorem DecodeRune_ascii (b : Byte) (s : List Byte) (hb : b.val < 0x80) :
    utf8.DecodeRune (b :: s) = (b.val, 1) := by
  have : utf8.first b.val = 0xF0 := by
    unfold utf8.first
    rw [if_pos hb]
  simp [utf8.DecodeRune, this]

theorem hexValue_hextable (n : Nat) (h : n < 16) : json.hexValue (hextable n) = some n := by
  interval_cases n <;> decide

theorem val_quote : ((0x22 : Byte) : Nat) = 0x22 := rfl

theorem val_backslash : ((0x5C : Byte) : Nat) = 0x5C := rfl

theorem val_u : ((0x75 : Byte) : Nat) = 0x75 := rfl

theorem unquote_quote (fuel : Nat) (rest : List Byte) :
    json.unquote (fuel + 1) (0x22 :: rest) = some ([], rest) := by
  simp [json.unquote, val_quote]

theorem unquote_plain (fuel : Nat) (b : Byte) (s : List Byte) (h1 : 0x20 ≤ b.val)
    (h2 : b.val ≠ 0x22) (h3 : b.val ≠ 0x5C) (h4 : b.val < 0x80) :
    json.unquote (fuel + 1) (b :: s) = (json.unquote fuel s).map (fun r => (b :: r.1, r.2)) := by
  have h5 : ¬ b.val < 0x20 := by omega
  simp only [json.unquote, h2, h3, h4, h5, if_false, if_true]

theorem unquote_simple (fuel : Nat) (e b : Byte) (s : List Byte) (he : e.val ≠ 0x75)
    (hs : json.simpleEscape e = some b) :
    json.unquote (fuel + 1) (0x5C :: e :: s)
      = (json.unquote fuel s).map (fun r => (b :: r.1, r.2)) := by
  simp [json.unquote, he, hs, val_backslash]

theorem unquote_u4 (fuel : Nat) (h0 h1 h2 h3 : Byte) (s : List Byte) (rr : Nat)
    (hg : json.getu4 (0x5C :: 0x75 :: h0 :: h1 :: h2 :: h3 :: s) = some rr)
    (hsur : utf16.IsSurrogate rr = false) :
    json.unquote (fuel + 1) (0x5C :: 0x75 :: h0 :: h1 :: h2 :: h3 :: s)
      = (json.unquote fuel s).map (fun r => (utf8.EncodeRune rr ++ r.1, r.2)) := by
  simp [json.unquote, hg, hsur, val_backslash, val_u]

theorem unquote_multibyte (fuel : Nat) (b : Byte) (s : List Byte) (hb : 0x80 ≤ b.val) :
    json.unquote (fuel + 1) (b :: s)
      = (json.unquote fuel ((b :: s).drop (utf8.DecodeRune (b :: s)).2)).map
        (fun r => (utf8.EncodeRune (utf8.DecodeRune (b :: s)).1 ++ r.1, r.2)) := by
  have h2 : b.val ≠ 0x22 := by omega
  have h3 : b.val ≠ 0x5C := by omega
  have h4 : ¬ b.val < 0x80 := by omega
  have h5 : ¬ b.val < 0x20 := by omega
  simp only [json.unquote, h2, h3, h4, h5, if_false]

theorem getu4_ascii (b : Byte) (s : List Byte) :
    json.getu4 (0x5C :: 0x75 :: 0x30 :: 0x30 :: hextable (b.val / 16) :: hextable (b.val % 16) :: s)
      = some b.val := by
  have h1 := hexValue_hextable (b.val / 16) (by omega)
  have h2 := hexValue_hextable (b.val % 16) (by omega)
  have h0 : json.hexValue 0x30 = some 0 := by decide
  simp only [json.getu4, h0, h1, h2]
  simp only [val_backslash, val_u, and_self, if_true, zero_mul, zero_add, Option.some.injEq]
  omega

theorem EncodeRune_ascii (b : Byte) (hb : b.val < 0x80) : utf8.EncodeRune b.val = [b] := by
  unfold utf8.EncodeRune
  rw [if_pos (by omega)]
  simp only [Fin.ofNat, List.cons.injEq, and_true]
  apply Fin.ext
  simp only
  omega

theorem unquote_escapeByte (fuel : Nat) (b : Byte) (s : List Byte) (hb : b.val < 0x80) :
    json.unquote (fuel + 1) (json.escapeByte b ++ s)
      = (json.unquote fuel s).map (fun r => (b :: r.1, r.2)) := by
  unfold json.escapeByte
  split_ifs with h1 h2 h3 h4
  · have : json.simpleEscape b = some b := by
      unfold json.simpleEscape
      rw [if_pos (by omega)]
    exact unquote_simple fuel b b s (by omega) this
  · have hb' : b = 0x0A := Fin.ext h2
    subst hb'
    exact unquote_simple fuel _ _ s (by decide) (by decide)
  · have hb' : b = 0x0D := Fin.ext h3
    subst hb'
    exact unquote_simple fuel _ _ s (by decide) (by decide)
  · have hb' : b = 0x09 := Fin.ext h4
    subst hb'
    exact unquote_simple fuel _ _ s (by decide) (by decide)
  · have hg := getu4_ascii b s
    have hsur : utf16.IsSurrogate b.val = false := by
      simp [utf16.IsSurrogate]; omega
    have := unquote_u4 fuel _ _ _ _ s b.val hg hsur
    rw [EncodeRune_ascii b hb] at this
    exact this

theorem length_escapeByte_pos (b : Byte) : 1 ≤ (json.escapeByte b).length := by
  unfold json.escapeByte
  split_ifs <;> simp

theorem unquote_encodeStringBody (steps : Nat) :
    ∀ (s : GoString) (fuel : Nat) (rest : List Byte), utf8.validLoop steps s = true →
      (json.encodeStringBody steps s).length < fuel →
      json.unquote fuel (json.encodeStringBody steps s ++ 0x22 :: rest) = some (s, rest) := by
  induction steps with
  | zero =>
    intro s fuel rest hv hf
    cases s with
    | nil =>
      obtain ⟨f, rfl⟩ : ∃ f, fuel = f + 1 := ⟨fuel - 1, by omega⟩
      simp [json.encodeStringBody, unquote_quote]
    | cons b s => simp [utf8.validLoop] at hv
  | succ steps ih =>
    intro s fuel rest hv hf
    cases s with
    | nil =>
      obtain ⟨f, rfl⟩ : ∃ f, fuel = f + 1 := ⟨fuel - 1, by omega⟩
      simp [json.encodeStringBody, unquote_quote]
    | cons b s =>
      obtain ⟨f, rfl⟩ : ∃ f, fuel = f + 1 := ⟨fuel - 1, by omega⟩
      by_cases hb : b.val < 0x80
      · have hd := DecodeRune_ascii b s hb
        have hv' : utf8.validLoop steps s = true := by
          simp only [utf8.validLoop, hd] at hv
          simp only [utf8.RuneError, List.drop_succ_cons, List.drop_zero] at hv
          split_ifs at hv
          exact hv
        simp only [json.encodeStringBody, hb, if_true] at hf ⊢
        by_cases hsafe : json.htmlSafeSet b.val = true
        · simp only [hsafe, if_true, List.cons_append, List.nil_append, List.length_cons] at hf ⊢
          simp only [json.htmlSafeSet, Bool.and_eq_true, decide_eq_true_eq, ne_eq] at hsafe
          rw [unquote_plain f b _ (by omega) (by omega) (by omega) hb, ih s f rest hv' (by omega)]
          rfl
        · simp only [hsafe, List.append_assoc, List.length_append, Bool.false_eq_true,
            if_false] at hf ⊢
          have := length_escapeByte_pos b
          rw [unquote_escapeByte f b _ hb, ih s f rest hv' (by omega)]
          rfl
      · have hb' : 0x80 ≤ b.val := by omega
        have hnot : ¬((utf8.DecodeRune (b :: s)).1 = utf8.RuneError ∧
            (utf8.DecodeRune (b :: s)).2 = 1) := by
          intro hc
          simp only [utf8.validLoop, hc, and_self, if_true] at hv
          exact absurd hv (by simp)
        have hw := DecodeRune_wellFormed b s hb' hnot
        obtain ⟨hn2, hnl, hr, -⟩ := hw.size
        have hv' : utf8.validLoop steps ((b :: s).drop (utf8.DecodeRune (b :: s)).2) = true := by
          simp only [utf8.validLoop, hnot, if_false] at hv
          exact hv
        have henc := hw.encode
        simp only [json.encodeStringBody, hb, if_false, hnot] at hf ⊢
        by_cases hsep : (utf8.DecodeRune (b :: s)).1 = 0x2028 ∨ (utf8.DecodeRune (b :: s)).1 = 0x2029
        · simp only [hsep, if_true, List.cons_append, List.nil_append, List.length_cons] at hf ⊢
          have hg : json.getu4 (0x5C :: 0x75 :: 0x32 :: 0x30 :: 0x32 ::
              hextable ((utf8.DecodeRune (b :: s)).1 % 16) ::
              (json.encodeStringBody steps ((b :: s).drop (utf8.DecodeRune (b :: s)).2)
                ++ 0x22 :: rest)) = some (utf8.DecodeRune (b :: s)).1 := by
            rcases hsep with h | h <;> rw [h] <;> rfl
          have hsur : utf16.IsSurrogate (utf8.DecodeRune (b :: s)).1 = false := by
            rcases hsep with h | h <;> rw [h] <;> rfl
          rw [unquote_u4 f _ _ _ _ _ _ hg hsur, ih _ f rest hv' (by omega)]
          simp only [Option.map_some', henc, List.take_append_drop]
        · simp only [hsep, if_false, List.append_assoc, List.length_append] at hf ⊢
          have hlen : ((b :: s).take (utf8.DecodeRune (b :: s)).2).length
              = (utf8.DecodeRune (b :: s)).2 := by
            rw [List.length_take]; omega
          obtain ⟨b0, tl, htl⟩ : ∃ b0 tl, (b :: s).take (utf8.DecodeRune (b :: s)).2 = b0 :: tl := by
            cases hh : (b :: s).take (utf8.DecodeRune (b :: s)).2 with
            | nil => rw [hh] at hlen; simp at hlen; omega
            | cons b0 tl => exact ⟨b0, tl, rfl⟩
          have hb0 : b0 = b := by
            have : (utf8.DecodeRune (b :: s)).2 = ((utf8.DecodeRune (b :: s)).2 - 1) + 1 := by omega
            rw [this, List.take_succ_cons] at htl
            exact (List.cons.inj htl).1.symm
          subst hb0
          have hdec := hw.decode
            (json.encodeStringBody steps ((b0 :: s).drop (utf8.DecodeRune (b0 :: s)).2)
              ++ 0x22 :: rest)
          have hstep := unquote_multibyte f b0
            (tl ++ (json.encodeStringBody steps ((b0 :: s).drop (utf8.DecodeRune (b0 :: s)).2)
              ++ 0x22 :: rest)) hb'
          have hlen' := hlen
          rw [htl] at hdec hlen'
          rw [htl]
          simp only [List.cons_append] at hdec ⊢
          rw [hstep, hdec]
          simp only
          have hdrop : List.drop (utf8.DecodeRune (b0 :: s)).2
              (b0 :: (tl ++ (json.encodeStringBody steps
                ((b0 :: s).drop (utf8.DecodeRune (b0 :: s)).2) ++ 0x22 :: rest)))
              = json.encodeStringBody steps ((b0 :: s).drop (utf8.DecodeRune (b0 :: s)).2)
                ++ 0x22 :: rest := by
            rw [← List.cons_append, ← hlen', List.drop_left]
          rw [hdrop, ih _ f rest hv' (by omega)]
          simp only [Option.map_some', henc, List.take_append_drop]

theorem parseString_encodeString (s : GoString) (rest : List Byte)
    (hv : utf8.ValidString s = true) :
    json.parseString (json.encodeString s ++ rest) = some (s, rest) := by
  unfold json.encodeString json.parseString
  simp only [List.cons_append, List.nil_append, List.append_assoc, val_quote, if_true]
  exact unquote_encodeStringBody s.length s _ rest hv (by simp)

theorem encodeString_eq_cons (s : GoString) :
    json.encodeString s = 0x22 :: (json.encodeStringBody s.length s ++ [0x22]) := rfl

theorem parseScalar_encodeString (s : GoString) (rest : List Byte)
    (hv : utf8.ValidString s = true) :
    json.parseScalar (json.encodeString s ++ rest) = some (JSON.string s, rest) := by
  have h := parseString_encodeString s rest hv
  rw [encodeString_eq_cons] at h ⊢
  simp only [List.cons_append] at h ⊢
  simp only [json.parseScalar, val_quote, if_true, h, Option.map_some']

theorem parseValue_encodeString (depth : Nat) (s : GoString) (rest : List Byte)
    (hv : utf8.ValidString s = true) :
    json.parseValue depth (json.encodeString s ++ rest) = some (JSON.string s, rest) := by
  have h := parseScalar_encodeString s rest hv
  rw [encodeString_eq_cons] at h ⊢
  simp only [List.cons_append, List.append_assoc, List.nil_append] at h ⊢
  cases depth <;> simp [json.parseValue, val_quote, h]

theorem skipSpace_cons (c : Byte) (s : List Byte) (h : json.isSpace c = false) :
    json.skipSpace (c :: s) = c :: s := by
  simp [json.skipSpace, h]

theorem length_encodeElements (es : List GoString) :
    es.length ≤ (json.encodeElements es).length := by
  induction es with
  | nil => simp
  | cons e es ih =>
    cases es with
    | nil => simp [json.encodeElements, json.encodeString]
    | cons e' es' =>
      simp only [json.encodeElements, List.length_append, List.length_cons] at ih ⊢
      simp only [json.encodeString, List.length_append, List.length_cons, List.length_nil] at ih ⊢
      omega

theorem parseElements_strings (depth : Nat) (e : GoString) (es : List GoString) :
    ∀ (steps : Nat) (rest : List Byte), (∀ x ∈ e :: es, utf8.ValidString x = true) →
      (e :: es).length ≤ steps →
      json.parseElements (json.parseValue depth) steps
          (json.encodeElements (e :: es) ++ 0x5D :: rest)
        = some ((e :: es).map JSON.string, rest) := by
  induction es generalizing e with
  | nil =>
    intro steps rest hv hs
    obtain ⟨n, rfl⟩ : ∃ n, steps = n + 1 := ⟨steps - 1, by simp at hs; omega⟩
    have h := parseValue_encodeString depth e (0x5D :: rest) (hv e (by simp))
    simp only [json.encodeElements, json.parseElements, h]
    rw [skipSpace_cons _ _ (by decide)]
    simp [Fin.coe_ofNat_eq_mod]
  | cons e' es ih =>
    intro steps rest hv hs
    obtain ⟨n, rfl⟩ : ∃ n, steps = n + 1 := ⟨steps - 1, by simp at hs; omega⟩
    have h := parseValue_encodeString depth e
      (0x2C :: (json.encodeElements (e' :: es) ++ 0x5D :: rest)) (hv e (by simp))
    have ih' := ih e' n rest (fun x hx => hv x (List.mem_cons_of_mem _ hx))
      (by simp at hs ⊢; omega)
    simp only [json.encodeElements, json.parseElements, List.append_assoc, List.cons_append,
      List.nil_append, h]
    rw [skipSpace_cons _ _ (by decide)]
    have hq : json.skipSpace (json.encodeElements (e' :: es) ++ 0x5D :: rest)
        = json.encodeElements (e' :: es) ++ 0x5D :: rest := by
      cases es with
      | nil =>
        simp only [json.encodeElements, encodeString_eq_cons, List.cons_append]
        exact skipSpace_cons _ _ (by decide)
      | cons e'' es' =>
        simp only [json.encodeElements, encodeString_eq_cons, List.cons_append]
        exact skipSpace_cons _ _ (by decide)
    simp only [hq, ih']
    simp [Fin.coe_ofNat_eq_mod]

theorem renders_string (s : GoString) (hv : utf8.ValidString s = true) :
    Renders (json.encodeString s) (JSON.string s) :=
  ⟨⟨0x22, _, encodeString_eq_cons s, by decide⟩,
   fun depth rest => parseValue_encodeString (depth + 1) s rest hv⟩

theorem renders_null : Renders (ascii "null") JSON.null := by
  refine ⟨⟨0x6E, ascii "ull", by decide, by decide⟩, ?_⟩
  intro depth rest
  show json.parseValue (depth + 1) (0x6E :: 0x75 :: 0x6C :: 0x6C :: rest) = _
  have he : json.expect (ascii "ull") (0x75 :: 0x6C :: 0x6C :: rest) = some rest := by
    show json.expect [0x75, 0x6C, 0x6C] (0x75 :: 0x6C :: 0x6C :: rest) = some rest
    simp [json.expect]
  simp [json.parseValue, json.parseScalar, he, Fin.coe_ofNat_eq_mod, json.isDigit]

theorem renders_slice (v : StringSlice) (hv : ∀ x ∈ v.range, utf8.ValidString x = true) :
    Renders (json.encodeStringSlice v) (sliceValue v) := by
  cases v with
  | none => exact renders_null
  | some elems =>
    refine ⟨⟨0x5B, _, rfl, by decide⟩, ?_⟩
    intro depth rest
    cases elems with
    | nil =>
      simp only [json.encodeStringSlice, json.encodeElements, List.nil_append, List.cons_append,
        List.append_nil, sliceValue, List.map_nil]
      simp only [json.parseValue, Fin.coe_ofNat_eq_mod, Nat.reduceMod, if_true]
      rw [skipSpace_cons _ _ (by decide)]
      simp [Fin.coe_ofNat_eq_mod]
    | cons e es =>
      have hlen := length_encodeElements (e :: es)
      have hp := parseElements_strings depth e es
        ((json.encodeElements (e :: es) ++ 0x5D :: rest).length) rest hv
        (by simp only [List.length_append]; omega)
      have hq : ∃ c1 t1, json.encodeElements (e :: es) ++ 0x5D :: rest = c1 :: t1 ∧
          json.isSpace c1 = false ∧ c1.val ≠ 0x5D := by
        cases es with
        | nil =>
          simp only [json.encodeElements, encodeString_eq_cons, List.cons_append]
          exact ⟨_, _, rfl, by decide, by decide⟩
        | cons e'' es' =>
          simp only [json.encodeElements, encodeString_eq_cons, List.cons_append]
          exact ⟨_, _, rfl, by decide, by decide⟩
      obtain ⟨c1, t1, hc, hsp, hne⟩ := hq
      simp only [json.encodeStringSlice, List.nil_append, List.cons_append,
        List.append_assoc, sliceValue]
      simp only [json.parseValue, Fin.coe_ofNat_eq_mod, Nat.reduceMod, if_true]
      rw [hc] at hp ⊢
      rw [skipSpace_cons _ _ hsp]
      simp only [hne, if_false, hp, Option.map_some']

/-! ## Objects: the members of the text `Marshal` writes -/

theorem parseMembers_cons (d steps : Nat) (key vtext next : GoString) (v : JSON)
    (hk : utf8.ValidString key = true) (hv : Renders vtext v)
    (hnext : json.skipSpace next = next) :
    json.parseMembers (json.parseValue (d + 1)) (steps + 1)
        (json.encodeString key ++ 0x3A :: (vtext ++ 0x2C :: next))
      = (json.parseMembers (json.parseValue (d + 1)) steps next).map
          (fun r => ((key, v) :: r.1, r.2)) := by
  obtain ⟨⟨c, t, hc, hsp⟩, hp⟩ := hv
  have h1 := parseString_encodeString key (0x3A :: (vtext ++ 0x2C :: next)) hk
  have h2 := hp d (0x2C :: next)
  have h3 : json.skipSpace (vtext ++ 0x2C :: next) = vtext ++ 0x2C :: next := by
    rw [hc]; exact skipSpace_cons _ _ hsp
  simp only [json.parseMembers, h1]
  rw [skipSpace_cons _ _ (by decide)]
  simp only [Fin.coe_ofNat_eq_mod, Nat.reduceMod, if_true, h3, h2]
  rw [skipSpace_cons _ _ (by decide)]
  simp only [Fin.coe_ofNat_eq_mod, Nat.reduceMod, if_true, hnext]

theorem parseMembers_last (d steps : Nat) (key vtext rest : GoString) (v : JSON)
    (hk : utf8.ValidString key = true) (hv : Renders vtext v) :
    json.parseMembers (json.parseValue (d + 1)) (steps + 1)
        (json.encodeString key ++ 0x3A :: (vtext ++ 0x7D :: rest))
      = some ([(key, v)], rest) := by
  obtain ⟨⟨c, t, hc, hsp⟩, hp⟩ := hv
  have h1 := parseString_encodeString key (0x3A :: (vtext ++ 0x7D :: rest)) hk
  have h2 := hp d (0x7D :: rest)
  have h3 : json.skipSpace (vtext ++ 0x7D :: rest) = vtext ++ 0x7D :: rest := by
    rw [hc]; exact skipSpace_cons _ _ hsp
  simp only [json.parseMembers, h1]
  rw [skipSpace_cons _ _ (by decide)]
  simp only [Fin.coe_ofNat_eq_mod, Nat.reduceMod, if_true, h3, h2]
  rw [skipSpace_cons _ _ (by decide)]
  simp [Fin.coe_ofNat_eq_mod]

theorem skipSpace_encodeString (s rest : GoString) :
    json.skipSpace (json.encodeString s ++ rest) = json.encodeString s ++ rest := by
  rw [encodeString_eq_cons, List.cons_append]
  exact skipSpace_cons _ _ (by decide)

theorem parseValue_object (d : Nat) (key tail : GoString) :
    json.parseValue (d + 1 + 1) (0x7B :: (json.encodeString key ++ tail))
      = (json.parseMembers (json.parseValue (d + 1)) (json.encodeString key ++ tail).length
          (json.encodeString key ++ tail)).map (fun r => (JSON.object r.1, r.2)) := by
  have h := skipSpace_encodeString key tail
  rw [encodeString_eq_cons, List.cons_append] at h ⊢
  simp only [json.parseValue, Fin.coe_ofNat_eq_mod, Nat.reduceMod, Nat.reduceEqDiff, if_false,
    if_true, h]

theorem parse_Marshal (c : CustomRule) (hid : utf8.ValidString c.ID.MarshalText = true)
    (h : ValidStrings c) :
    json.parse (json.Marshal c) = some (JSON.object (membersOf c)) := by
  obtain ⟨hN, hD, hL, hS, hC, hT, hE⟩ := h
  have hdepth : json.maxNestingDepth = 9998 + 1 + 1 := rfl
  unfold json.parse json.Marshal
  simp only [json.encodeName, List.append_assoc, List.cons_append, List.nil_append]
  rw [skipSpace_cons _ _ (by decide), hdepth, parseValue_object]
  generalize hX : List.length _ = n
  have hge : 8 ≤ n := by
    rw [← hX]
    simp only [List.length_append, List.length_cons, encodeString_eq_cons]
    omega
  obtain ⟨k, rfl⟩ : ∃ k, n = k + 1 + 1 + 1 + 1 + 1 + 1 + 1 + 1 := ⟨n - 8, by omega⟩
  rw [parseMembers_cons _ _ _ _ _ _ (by decide) (renders_string _ hid)
    (skipSpace_encodeString _ _)]
  rw [parseMembers_cons _ _ _ _ _ _ (by decide) (renders_string _ hN)
    (skipSpace_encodeString _ _)]
  rw [parseMembers_cons _ _ _ _ _ _ (by decide) (renders_string _ hD)
    (skipSpace_encodeString _ _)]
  rw [parseMembers_cons _ _ _ _ _ _ (by decide) (renders_string _ hL)
    (skipSpace_encodeString _ _)]
  rw [parseMembers_cons _ _ _ _ _ _ (by decide) (renders_string _ hS)
    (skipSpace_encodeString _ _)]
  rw [parseMembers_cons _ _ _ _ _ _ (by decide) (renders_string _ hC)
    (skipSpace_encodeString _ _)]
  rw [parseMembers_cons _ _ _ _ _ _ (by decide) (renders_string _ hT)
    (skipSpace_encodeString _ _)]
  rw [parseMembers_last _ _ _ _ _ _ (by decide) (renders_slice _ hE)]
  simp [membersOf, json.skipSpace]

/-! ## The identifier: `UnmarshalText` after `MarshalText` -/

theorem validLoop_ascii (s : GoString) (h : ∀ b ∈ s, b.val < 0x80) :
    ∀ steps, s.length ≤ steps → utf8.validLoop steps s = true := by
  induction s with
  | nil => intro steps _; cases steps <;> rfl
  | cons b s ih =>
    intro steps hs
    obtain ⟨n, rfl⟩ : ∃ n, steps = n + 1 := ⟨steps - 1, by simp at hs; omega⟩
    have hb := h b (by simp)
    have hd := DecodeRune_ascii b s hb
    simp only [utf8.validLoop, hd, utf8.RuneError, List.drop_succ_cons, List.drop_zero]
    rw [if_neg (by omega)]
    exact ih (fun x hx => h x (List.mem_cons_of_mem _ hx)) n (by simp at hs; omega)

theorem ValidString_ascii (s : GoString) (h : ∀ b ∈ s, b.val < 0x80) :
    utf8.ValidString s = true :=
  validLoop_ascii s h s.length (le_refl _)

theorem hextable_lt (n : Nat) (h : n < 16) : (hextable n).val < 0x80 := by
  interval_cases n <;> decide

theorem hexEncode_ascii (src : List Byte) : ∀ b ∈ hex.Encode src, b.val < 0x80 := by
  intro b hb
  simp only [hex.Encode, List.mem_flatMap, List.mem_cons, List.mem_singleton,
    List.not_mem_nil, or_false] at hb
  obtain ⟨v, -, rfl | rfl⟩ := hb
  · exact hextable_lt _ (by omega)
  · exact hextable_lt _ (by omega)

theorem ValidString_MarshalText (u : UUID) : utf8.ValidString u.MarshalText = true := by
  apply ValidString_ascii
  intro b hb
  simp only [UUID.MarshalText, uuid.encodeHex, List.mem_append, List.mem_singleton] at hb
  rcases hb with (((((((h | h) | h) | h) | h) | h) | h) | h) | h
  all_goals first
    | exact hexEncode_ascii _ b h
    | (subst h; decide)

theorem xtob_hextable (v : Byte) :
    uuid.xtob (hextable (v.val / 16)) (hextable (v.val % 16)) = some v := by
  have h1 : ∀ n, n < 16 → uuid.xvalues (hextable n) = n := by
    intro n hn
    interval_cases n <;> decide
  have := v.isLt
  simp only [uuid.xtob, h1 _ (show v.val / 16 < 16 by omega), h1 _ (show v.val % 16 < 16 by omega)]
  rw [if_pos (by omega)]
  congr 1
  apply Fin.ext
  simp only [Fin.ofNat, Fin.val_mk]
  omega

theorem hexPairs_encode (src : List Byte) : uuid.hexPairs (hex.Encode src) = some src := by
  induction src with
  | nil => rfl
  | cons v src ih =>
    simp only [hex.Encode, List.flatMap_cons, List.cons_append, List.nil_append] at ih ⊢
    simp only [uuid.hexPairs, xtob_hextable, ih]

theorem length_hexEncode (src : List Byte) : (hex.Encode src).length = 2 * src.length := by
  induction src with
  | nil => rfl
  | cons v src ih =>
    simp only [hex.Encode, List.flatMap_cons, List.length_append, List.length_cons,
      List.length_nil] at ih ⊢
    omega

theorem UnmarshalText_MarshalText (u : UUID) : UUID.UnmarshalText u.MarshalText = some u := by
  obtain ⟨l, hl⟩ := u
  rcases l with _ | ⟨b0, _ | ⟨b1, _ | ⟨b2, _ | ⟨b3, _ | ⟨b4, _ | ⟨b5, _ | ⟨b6, _ | ⟨b7, _ | ⟨b8, _ | ⟨b9, _ | ⟨b10, _ | ⟨b11, _ | ⟨b12, _ | ⟨b13, _ | ⟨b14, _ | ⟨b15, _ | ⟨b16, l⟩⟩⟩⟩⟩⟩⟩⟩⟩⟩⟩⟩⟩⟩⟩⟩⟩ <;>
    simp only [List.length_cons, List.length_nil] at hl <;> try omega
  simp [UUID.UnmarshalText, UUID.MarshalText, uuid.ParseBytes, uuid.encodeHex, hex.Encode,
    uuid.parseCanonical, uuid.hexPairs, xtob_hextable, uuid.ofBytes]

/-! ## Storing the members into the struct -/

theorem growSlice_spec (i : Nat) (v : SliceState) (hlen : v.len = i)
    (hcap : i ≤ v.backing.length) :
    (json.growSlice i v).len = i + 1 ∧ i < (json.growSlice i v).backing.length ∧
    (json.growSlice i v).backing.take i = v.backing.take i := by
  unfold json.growSlice
  by_cases hi : i ≥ v.backing.length
  · have hcap' : v.backing.length = i := by omega
    simp only [hi, if_true, hlen, ge_iff_le, le_refl]
    refine ⟨trivial, ?_, ?_⟩
    · simp only [List.length_append, List.length_take, List.length_replicate, hcap']
      split_ifs <;> omega
    · rw [List.take_append_of_le_length (by simp [hcap'])]
      simp
  · simp only [hi, if_false, hlen, ge_iff_le, le_refl, if_true]
    exact ⟨trivial, by omega, trivial⟩

theorem take_set_succ {α : Type} (l : List α) (i : Nat) (a : α) (h : i < l.length) :
    (l.set i a).take (i + 1) = l.take i ++ [a] := by
  induction l generalizing i with
  | nil => simp at h
  | cons x l ih =>
    cases i with
    | zero => simp
    | succ i =>
      simp only [List.length_cons, Nat.add_lt_add_iff_right] at h
      simp [ih i h]

theorem storeElements_strings (es : List GoString) :
    ∀ (i : Nat) (v : SliceState), v.len = i → i ≤ v.backing.length →
      ∃ v', json.storeElements (es.map JSON.string) i v = some v' ∧
        v'.len = i + es.length ∧ v'.backing.take (i + es.length) = v.backing.take i ++ es := by
  induction es with
  | nil =>
    intro i v hlen _
    exact ⟨v, rfl, by simpa using hlen, by simp⟩
  | cons e es ih =>
    intro i v hlen hcap
    obtain ⟨g1, g2, g3⟩ := growSlice_spec i v hlen hcap
    obtain ⟨v', h1, h2, h3⟩ := ih (i + 1)
      ⟨(json.growSlice i v).backing.set i e, (json.growSlice i v).len⟩ g1
      (by simp only [List.length_set]; omega)
    refine ⟨v', ?_, ?_, ?_⟩
    · simp only [List.map_cons, json.storeElements, json.storeString]
      exact h1
    · simp only [List.length_cons]; omega
    · have : i + (e :: es).length = i + 1 + es.length := by simp only [List.length_cons]; omega
      rw [this, h3]
      simp only
      rw [take_set_succ _ _ _ g2, g3]
      simp

theorem storeSlice_sliceValue (v : StringSlice) :
    ∃ st, json.storeSlice (sliceValue v) none = some st ∧
      st.map (fun x => x.backing.take x.len) = v := by
  cases v with
  | none => exact ⟨none, rfl, rfl⟩
  | some es =>
    obtain ⟨v', h1, h2, h3⟩ := storeElements_strings es 0 ⟨[], 0⟩ rfl (by simp)
    simp only [sliceValue, json.storeSlice, Option.getD_none, h1, List.length_map]
    by_cases h0 : es.length = 0
    · refine ⟨some ⟨[], 0⟩, by simp [h0], ?_⟩
      have : es = [] := List.length_eq_zero.mp h0
      simp [this]
    · refine ⟨some v', by simp [h0, h2], ?_⟩
      simp only [zero_add, List.take_zero, List.nil_append] at h2 h3
      simp [h2, h3]

theorem storeMembers_membersOf (c : CustomRule) :
    (json.storeMembers (membersOf c) Target.zero).map Target.toRule = some c := by
  obtain ⟨st, hs1, hs2⟩ := storeSlice_sliceValue c.Expressions
  have f1 : json.findField Field.ID.name = some Field.ID := by decide
  have f2 : json.findField Field.Name.name = some Field.Name := by decide
  have f3 : json.findField Field.Description.name = some Field.Description := by decide
  have f4 : json.findField Field.Language.name = some Field.Language := by decide
  have f5 : json.findField Field.Severity.name = some Field.Severity := by decide
  have f6 : json.findField Field.Confidence.name = some Field.Confidence := by decide
  have f7 : json.findField Field.Type_.name = some Field.Type_ := by decide
  have f8 : json.findField Field.Expressions.name = some Field.Expressions := by decide
  have hz : Target.zero.Expressions = none := rfl
  simp only [membersOf, json.storeMembers, f1, f2, f3, f4, f5, f6, f7, f8, json.storeField,
    json.storeUUID, json.storeString, UnmarshalText_MarshalText, Option.map_some', hz, hs1,
    Target.toRule, hs2]

/-- The text of a rule whose strings are valid UTF-8 reads back as the rule. -/
theorem Unmarshal_ToString (c : CustomRule) (h : ValidStrings c) :
    json.Unmarshal c.ToString = some c := by
  unfold json.Unmarshal CustomRule.ToString
  rw [parse_Marshal c (ValidString_MarshalText c.ID) h]
  exact storeMembers_membersOf c

/-! ## Pattern compilation: the loop -/

theorem loop_eq {Prog Err : Type} (parse : GoString → Except Err Prog) (xs : List GoString)
    (acc : List (Regexp Prog)) (log : List (LogEntry Err)) :
    CustomRule.GetExpressions.loop parse xs (acc, log) =
      (acc ++ xs.filterMap (compiled parse), log ++ xs.filterMap (diagnostic parse)) := by
  induction xs generalizing acc log with
  | nil => simp [CustomRule.GetExpressions.loop]
  | cons x xs ih =>
    unfold CustomRule.GetExpressions.loop
    cases h : regexp.Compile parse x with
    | error err => simp [ih, compiled, diagnostic, h, List.filterMap_cons]
    | ok regex => simp [ih, compiled, diagnostic, h, List.filterMap_cons]

theorem GetExpressions_eq {Prog Err : Type} (parse : GoString → Except Err Prog) (c : CustomRule)
    (log : List (LogEntry Err)) :
    c.GetExpressions parse log =
      (c.Expressions.range.filterMap (compiled parse), log ++ c.Expressions.range.filterMap (diagnostic parse)) := by
  simp [CustomRule.GetExpressions, loop_eq]

theorem compiled_expr {Prog Err : Type} (parse : GoString → Except Err Prog) (e : GoString)
    (r : Regexp Prog) (h : compiled parse e = some r) : r.expr = e ∧ compiles parse e = true := by
  unfold compiled at h
  unfold compiles
  unfold regexp.Compile at *
  cases hp : parse e with
  | error err => simp [hp] at h
  | ok prog =>
    simp only [hp, Option.some.injEq] at h
    subst h
    simp

theorem compiled_eq_none_iff {Prog Err : Type} (parse : GoString → Except Err Prog) (e : GoString) :
    compiled parse e = none ↔ compiles parse e = false := by
  unfold compiled compiles
  cases regexp.Compile parse e <;> simp

theorem diagnostic_eq_none_iff {Prog Err : Type} (parse : GoString → Except Err Prog)
    (e : GoString) : diagnostic parse e = none ↔ compiles parse e = true := by
  unfold diagnostic compiles
  cases regexp.Compile parse e <;> simp

theorem map_expr_compiled {Prog Err : Type} (parse : GoString → Except Err Prog)
    (xs : List GoString) :
    (xs.filterMap (compiled parse)).map Regexp.expr = xs.filter (compiles parse) := by
  induction xs with
  | nil => rfl
  | cons x xs ih =>
    cases h : compiled parse x with
    | none =>
      have := (compiled_eq_none_iff parse x).1 h
      simp [List.filterMap_cons, h, List.filter_cons, this, ih]
    | some r =>
      obtain ⟨h1, h2⟩ := compiled_expr parse x r h
      simp [List.filterMap_cons, h, List.filter_cons, h2, ih, h1]

theorem length_compiled_add_diagnostic {Prog Err : Type} (parse : GoString → Except Err Prog)
    (xs : List GoString) :
    (xs.filterMap (diagnostic parse)).length + (xs.filterMap (compiled parse)).length
      = xs.length := by
  induction xs with
  | nil => rfl
  | cons x xs ih =>
    unfold compiled diagnostic at *
    cases h : regexp.Compile parse x <;> simp [List.filterMap_cons, h] <;> omega

/-! ## The claims -/

/-- C1: `GetRuleType` maps each of the four combination modes to the match type of
the same name, and two rules whose modes are different members of the four never
resolve to the same match type. -/
theorem GetRuleType_one_to_one :
    (∀ c : CustomRule, c.Type_ = customRulesEnums.Regular →
      c.GetRuleType = text.MatchType.Regular) ∧
    (∀ c : CustomRule, c.Type_ = customRulesEnums.OrMatch →
      c.GetRuleType = text.MatchType.OrMatch) ∧
    (∀ c : CustomRule, c.Type_ = customRulesEnums.AndMatch →
      c.GetRuleType = text.MatchType.AndMatch) ∧
    (∀ c : CustomRule, c.Type_ = customRulesEnums.NotMatch →
      c.GetRuleType = text.MatchType.NotMatch) ∧
    (∀ c d : CustomRule, c.Type_ ∈ allowedTypes → d.Type_ ∈ allowedTypes →
      c.Type_ ≠ d.Type_ → c.GetRuleType ≠ d.GetRuleType) := by
  refine ⟨?_, ?_, ?_, ?_, ?_⟩
  · intro c h
    simp [CustomRule.GetRuleType, CustomRule.GetRuleTypeTraced, h]
  · intro c h
    rw [CustomRule.GetRuleType, CustomRule.GetRuleTypeTraced, h]
    decide
  · intro c h
    rw [CustomRule.GetRuleType, CustomRule.GetRuleTypeTraced, h]
    decide
  · intro c h
    rw [CustomRule.GetRuleType, CustomRule.GetRuleTypeTraced, h]
    decide
  · intro c d hc hd hne
    simp only [allowedTypes, List.mem_cons, List.mem_singleton, List.not_mem_nil, or_false]
      at hc hd
    rw [CustomRule.GetRuleType, CustomRule.GetRuleTypeTraced, CustomRule.GetRuleType,
      CustomRule.GetRuleTypeTraced]
    rcases hc with hc | hc | hc | hc <;> rcases hd with hd | hd | hd | hd <;>
      rw [hc, hd] at hne ⊢ <;> first | exact absurd rfl hne | decide

/-- C1, at a concrete pair of rules: an `AndMatch` rule and a `NotMatch` rule
resolve to different match types. -/
theorem GetRuleType_one_to_one_witness :
    (andRule.GetRuleType = text.MatchType.AndMatch) ∧
    andRule.GetRuleType ≠ ({ andRule with Type_ := customRulesEnums.NotMatch }).GetRuleType :=
  ⟨GetRuleType_one_to_one.2.2.1 andRule (by decide),
   GetRuleType_one_to_one.2.2.2.2 andRule { andRule with Type_ := customRulesEnums.NotMatch }
     (by decide) (by decide) (by decide)⟩

/-- C2: a rule whose language, severity, confidence and type are each one of the
allowed values (so none of them is empty) passes `Validate`, whatever its
identifier, name, description and expressions are. -/
theorem Validate_accepts_valid (c : CustomRule)
    (hL : c.Language ∈ allowedLanguages) (hS : c.Severity ∈ allowedSeverities)
    (hC : c.Confidence ∈ allowedConfidences) (hT : c.Type_ ∈ allowedTypes) :
    c.Validate = none := by
  rw [Validate_eq_none_iff]
  simp only [fieldError_eq_none_iff]
  refine ⟨⟨?_, hL⟩, ⟨?_, hS⟩, ⟨?_, hC⟩, ⟨?_, hT⟩⟩
  · rintro h; rw [h] at hL; revert hL; decide
  · rintro h; rw [h] at hS; revert hS; decide
  · rintro h; rw [h] at hC; revert hC; decide
  · rintro h; rw [h] at hT; revert hT; decide

/-- C2, at the rule of the spec's scenario (`type=And`, two expressions). -/
theorem Validate_accepts_valid_witness : andRule.Validate = none :=
  Validate_accepts_valid andRule (by decide) (by decide) (by decide) (by decide)

/-- C3: the error of `Validate` has an entry for each of language, severity,
confidence and type exactly when that field is empty or outside its allowed set,
all of them at once; `Validate` fails exactly when one of the four is violated;
and a rule with language `COBOL` gets an entry under `language`. -/
theorem Validate_reports_every_violation (c : CustomRule) :
    ((entry c.Validate "language").isSome = true ↔
      (c.Language = [] ∨ c.Language ∉ allowedLanguages)) ∧
    ((entry c.Validate "severity").isSome = true ↔
      (c.Severity = [] ∨ c.Severity ∉ allowedSeverities)) ∧
    ((entry c.Validate "confidence").isSome = true ↔
      (c.Confidence = [] ∨ c.Confidence ∉ allowedConfidences)) ∧
    ((entry c.Validate "type").isSome = true ↔
      (c.Type_ = [] ∨ c.Type_ ∉ allowedTypes)) ∧
    (c.Validate.isSome = true ↔
      ((c.Language = [] ∨ c.Language ∉ allowedLanguages) ∨
       (c.Severity = [] ∨ c.Severity ∉ allowedSeverities) ∨
       (c.Confidence = [] ∨ c.Confidence ∉ allowedConfidences) ∨
       (c.Type_ = [] ∨ c.Type_ ∉ allowedTypes))) ∧
    entry ({ c with Language := ascii "COBOL" }).Validate "language"
      = some RuleError.ErrInInvalid := by
  obtain ⟨-, h1, h2, h3, h4⟩ := entry_Validate c
  refine ⟨?_, ?_, ?_, ?_, ?_, ?_⟩
  · rw [h1, fieldError_isSome_iff]
  · rw [h2, fieldError_isSome_iff]
  · rw [h3, fieldError_isSome_iff]
  · rw [h4, fieldError_isSome_iff]
  · have := Validate_eq_none_iff c
    simp only [← fieldError_isSome_iff]
    rw [← Option.not_isSome_iff_eq_none] at this
    cases hv : c.Validate.isSome
    · simp only [hv, Bool.false_eq_true, not_false_eq_true, true_iff] at this
      simp [this.1, this.2.1, this.2.2.1, this.2.2.2]
    · simp only [hv, not_true_eq_false, false_iff] at this
      simp only [true_iff]
      by_contra hcon
      apply this
      simp only [not_or, Bool.not_eq_true, Option.not_isSome, Option.isNone_iff_eq_none] at hcon
      exact hcon
  · rw [(entry_Validate _).2.1]
    show fieldError allowedLanguages (ascii "COBOL") = some RuleError.ErrInInvalid
    decide

/-- C5: for a rule whose type is none of the four modes (the empty string
included), `GetRuleType` returns `text.Regular`, through the trailing `return`. -/
theorem GetRuleType_fallback (c : CustomRule) (h : c.Type_ ∉ allowedTypes) :
    c.GetRuleType = text.MatchType.Regular ∧
    c.GetRuleTypeTraced = (ReturnSite.fallback, text.MatchType.Regular) := by
  simp only [allowedTypes, List.mem_cons, List.mem_singleton, List.not_mem_nil, or_false,
    not_or] at h
  simp [CustomRule.GetRuleType, CustomRule.GetRuleTypeTraced, h]

/-- C5, at a rule with an empty type and at a rule with an unknown type. -/
theorem GetRuleType_fallback_witness :
    ({ andRule with Type_ := [] }).GetRuleType = text.MatchType.Regular ∧
    ({ andRule with Type_ := ascii "Xor" }).GetRuleType = text.MatchType.Regular :=
  ⟨(GetRuleType_fallback { andRule with Type_ := [] } (by decide)).1,
   (GetRuleType_fallback { andRule with Type_ := ascii "Xor" } (by decide)).1⟩

/-- C6: `Validate` never reports the identifier: no rule gets an entry under
`id`, and the rule with the nil UUID and otherwise valid fields passes. -/
theorem Validate_nil_id_passes :
    (∀ c : CustomRule, entry c.Validate "id" = none) ∧
    ({ andRule with ID := uuid.Nil }).Validate = none := by
  refine ⟨fun c => (entry_Validate c).1, ?_⟩
  decide

/-- C9: `Validate` reads the identifier, language, severity, confidence and type
only: two rules that agree on these get the same result, whatever their names,
descriptions and expressions; and a call leaves the rule as it was. -/
theorem Validate_ignores_expressions (c d : CustomRule) (hID : c.ID = d.ID)
    (hL : c.Language = d.Language) (hS : c.Severity = d.Severity)
    (hC : c.Confidence = d.Confidence) (hT : c.Type_ = d.Type_) :
    c.Validate = d.Validate ∧ c.ValidateCall.2 = c ∧ d.ValidateCall.2 = d := by
  refine ⟨?_, rfl, rfl⟩
  unfold CustomRule.Validate
  rw [hID, hL, hS, hC, hT]

/-- C9, at the scenario rule and the same rule with other free fields and an
expression that does not compile. -/
theorem Validate_ignores_expressions_witness :
    andRule.Validate = unclosedRule.Validate :=
  (Validate_ignores_expressions andRule unclosedRule rfl rfl rfl rfl rfl).1

/-- C10: a rule that passes `Validate` has one of the four modes as its type, and
`GetRuleType` returns through one of the four cases, not through the trailing
`return`. -/
theorem validated_never_falls_back (c : CustomRule) (h : c.Validate = none) :
    c.Type_ ∈ allowedTypes ∧ c.GetRuleTypeTraced.1 ≠ ReturnSite.fallback := by
  have hT := ((Validate_eq_none_iff c).1 h).2.2.2
  rw [fieldError_eq_none_iff] at hT
  refine ⟨hT.2, ?_⟩
  have hm := hT.2
  simp only [allowedTypes, List.mem_cons, List.mem_singleton, List.not_mem_nil, or_false] at hm
  unfold CustomRule.GetRuleTypeTraced
  rcases hm with hm | hm | hm | hm <;> rw [hm] <;> decide

/-- C10, at the scenario rule. -/
theorem validated_never_falls_back_witness :
    andRule.Validate = none ∧ andRule.GetRuleTypeTraced.1 ≠ ReturnSite.fallback :=
  ⟨by decide, (validated_never_falls_back andRule (by decide)).2⟩

/-- C4: `GetExpressions` returns the matchers of exactly the expressions that
compile, in input order: the result is the order-preserving filter of the input;
it is no longer than the input; every matcher's source is an input expression
that compiles; an expression that fails is skipped and the ones after it are
still compiled; and nothing is returned when no expression compiles. -/
theorem GetExpressions_filters {Prog Err : Type} (parse : GoString → Except Err Prog)
    (c : CustomRule) (log : List (LogEntry Err)) :
    (c.GetExpressions parse log).1 = c.Expressions.range.filterMap (compiled parse) ∧
    (c.GetExpressions parse log).1.map Regexp.expr = c.Expressions.range.filter (compiles parse) ∧
    (c.GetExpressions parse log).1.length ≤ c.Expressions.range.length ∧
    (∀ r ∈ (c.GetExpressions parse log).1,
      r.expr ∈ c.Expressions.range ∧ compiles parse r.expr = true) ∧
    (∀ before failing after, c.Expressions.range = before ++ failing :: after →
      compiles parse failing = false →
      (c.GetExpressions parse log).1
        = before.filterMap (compiled parse) ++ after.filterMap (compiled parse)) ∧
    ((∀ e ∈ c.Expressions.range, compiles parse e = false) → (c.GetExpressions parse log).1 = []) := by
  have hmap := map_expr_compiled parse c.Expressions.range
  rw [GetExpressions_eq]
  refine ⟨rfl, hmap, List.length_filterMap_le _ _, ?_, ?_, ?_⟩
  · intro r hr
    have : r.expr ∈ c.Expressions.range.filter (compiles parse) := by
      rw [← hmap]; exact List.mem_map_of_mem _ hr
    rw [List.mem_filter] at this
    exact this
  · intro before failing after he hf
    have := (compiled_eq_none_iff parse failing).2 hf
    simp [he, List.filterMap_append, List.filterMap_cons, this]
  · intro hall
    simp only [List.filterMap_eq_nil_iff]
    intro e he
    exact (compiled_eq_none_iff parse e).2 (hall e he)

/-- C4, at the rule whose only expression is `(unclosed` and at a rule with a
failing expression between two that compile. -/
theorem GetExpressions_filters_witness :
    (unclosedRule.GetExpressions groupCheck []).1 = [] ∧
    (mixedRule.GetExpressions groupCheck []).1
      = [⟨ascii "^password=", ()⟩, ⟨ascii "[0-9]\x7b4,\x7d", ()⟩] :=
  ⟨(GetExpressions_filters groupCheck unclosedRule []).2.2.2.2.2 (by decide),
   ((GetExpressions_filters groupCheck mixedRule []).2.2.2.2.1 [ascii "^password="]
      (ascii "(unclosed") [ascii "[0-9]\x7b4,\x7d"] (by decide) (by decide)).trans (by decide)⟩

/-- C8: one call of `GetExpressions` appends to the log one diagnostic for each
expression that fails to compile, in input order and with multiplicity, and
nothing for an expression that compiles; the diagnostic of an expression is the
text `\x7bHORUSEC_CLI\x7d failed to compile custom rule regex: ` followed by the
expression itself, together with the error `regexp.Compile` returned for it;
every appended diagnostic belongs to a failing expression of the rule; and
diagnostics and returned matchers together are as many as the expressions. -/
theorem GetExpressions_logs_failures {Prog Err : Type} (parse : GoString → Except Err Prog)
    (c : CustomRule) (log : List (LogEntry Err)) :
    (c.GetExpressions parse log).2 = log ++ c.Expressions.range.filterMap (diagnostic parse) ∧
    (∀ e, diagnostic parse e = none ↔ compiles parse e = true) ∧
    (∀ e d, diagnostic parse e = some d ↔
      (regexp.Compile parse e = .error d.err ∧ d.msg = compileFailureMessage e)) ∧
    ((c.GetExpressions parse log).2.length - log.length) + (c.GetExpressions parse log).1.length
      = c.Expressions.range.length ∧
    (∀ e d, diagnostic parse e = some d ↔
      (regexp.Compile parse e = .error d.err ∧
       d.msg = ascii "\x7bHORUSEC_CLI\x7d failed to compile custom rule regex: " ++ e)) ∧
    (∀ e d, diagnostic parse e = some d → e <:+ d.msg ∧ d.msg.length = 51 + e.length) ∧
    (∀ d ∈ (c.GetExpressions parse log).2.drop log.length,
      ∃ e ∈ c.Expressions.range, compiles parse e = false ∧
        regexp.Compile parse e = .error d.err ∧
        d.msg = ascii "\x7bHORUSEC_CLI\x7d failed to compile custom rule regex: " ++ e) := by
  have hiff : ∀ e d, diagnostic parse e = some d ↔
      (regexp.Compile parse e = .error d.err ∧ d.msg = compileFailureMessage e) := by
    intro e d
    unfold diagnostic
    cases h : regexp.Compile parse e with
    | error err =>
      obtain ⟨m, er⟩ := d
      simp only [Option.some.injEq, LogEntry.mk.injEq, Except.error.injEq]
      constructor
      · rintro ⟨h1, h2⟩; exact ⟨h2, h1.symm⟩
      · rintro ⟨h1, h2⟩; exact ⟨h2.symm, h1⟩
    | ok r => simp
  have hlen : (ascii "\x7bHORUSEC_CLI\x7d failed to compile custom rule regex: ").length = 51 := by
    decide
  rw [GetExpressions_eq]
  refine ⟨rfl, diagnostic_eq_none_iff parse, hiff, ?_, hiff, ?_, ?_⟩
  · simp only [List.length_append, Nat.add_sub_cancel_left]
    exact length_compiled_add_diagnostic parse c.Expressions.range
  · intro e d hd
    obtain ⟨-, hm⟩ := (hiff e d).1 hd
    rw [hm]
    refine ⟨List.suffix_append _ _, ?_⟩
    simp only [compileFailureMessage, List.length_append, hlen]
  · intro d hd
    simp only [List.drop_left] at hd
    obtain ⟨e, he, hde⟩ := List.mem_filterMap.1 hd
    obtain ⟨h1, h2⟩ := (hiff e d).1 hde
    refine ⟨e, he, ?_, h1, h2⟩
    unfold compiles
    rw [h1]

/-- C8, at concrete rules: the rule with `(unclosed` between two expressions that
compile logs exactly one diagnostic, whose message ends in `(unclosed`, after
what the log held before; the scenario rule logs nothing; and the rule with two
failing copies of an expression logs it twice. -/
theorem GetExpressions_logs_failures_witness :
    (mixedRule.GetExpressions groupCheck [⟨ascii "earlier", "e0"⟩]).2
      = [⟨ascii "earlier", "e0"⟩,
         ⟨[123, 72, 79, 82, 85, 83, 69, 67, 95, 67, 76, 73, 125, 32, 102, 97, 105, 108, 101, 100, 32, 116, 111, 32, 99, 111, 109, 112, 105, 108, 101, 32, 99, 117, 115, 116, 111, 109, 32, 114, 117, 108, 101, 32, 114, 101, 103, 101, 120, 58, 32, 40, 117, 110, 99, 108, 111, 115, 101, 100], "missing closing )"⟩] ∧
    (andRule.GetExpressions groupCheck []).2 = [] ∧
    (({ andRule with Expressions := some [ascii "a)", ascii "ok", ascii "a)"] } : CustomRule).GetExpressions
        groupCheck []).2
      = [⟨ascii "\x7bHORUSEC_CLI\x7d failed to compile custom rule regex: a)", "unexpected )"⟩,
         ⟨ascii "\x7bHORUSEC_CLI\x7d failed to compile custom rule regex: a)", "unexpected )"⟩] ∧
    ascii "(unclosed" <:+ [123, 72, 79, 82, 85, 83, 69, 67, 95, 67, 76, 73, 125, 32, 102, 97, 105, 108, 101, 100, 32, 116, 111, 32, 99, 111, 109, 112, 105, 108, 101, 32, 99, 117, 115, 116, 111, 109, 32, 114, 117, 108, 101, 32, 114, 101, 103, 101, 120, 58, 32, 40, 117, 110, 99, 108, 111, 115, 101, 100] :=
  ⟨(GetExpressions_logs_failures groupCheck mixedRule [⟨ascii "earlier", "e0"⟩]).1.trans
     (by decide),
   (GetExpressions_logs_failures groupCheck andRule []).1.trans (by decide),
   (GetExpressions_logs_failures groupCheck
     { andRule with Expressions := some [ascii "a)", ascii "ok", ascii "a)"] } []).1.trans
     (by decide),
   ((GetExpressions_logs_failures groupCheck mixedRule []).2.2.2.2.2.1 (ascii "(unclosed")
     ⟨[123, 72, 79, 82, 85, 83, 69, 67, 95, 67, 76, 73, 125, 32, 102, 97, 105, 108, 101, 100, 32, 116, 111, 32, 99, 111, 109, 112, 105, 108, 101, 32, 99, 117, 115, 116, 111, 109, 32, 114, 117, 108, 101, 32, 114, 101, 103, 101, 120, 58, 32, 40, 117, 110, 99, 108, 111, 115, 101, 100], "missing closing )"⟩ (by decide)).1⟩

set_option maxRecDepth 100000 in
/-- C7, as stated: the rule whose name is the byte `0xFF` passes `Validate`, and
its text does not read back as the rule (the name comes back as U+FFFD). -/
theorem ToString_round_trip_fails_on_invalid_utf8 :
    invalidNameRule.Validate = none ∧
    json.Unmarshal invalidNameRule.ToString ≠ some invalidNameRule ∧
    (json.Unmarshal invalidNameRule.ToString).map CustomRule.Name = some [0xEF, 0xBF, 0xBD] := by
  decide

/-- C7, amended: for a rule that passes `Validate` and whose name, description
and expressions are valid UTF-8, parsing the text `ToString` returns into a zero
`CustomRule` succeeds and yields the rule, equal in all eight fields. -/
theorem ToString_round_trip (c : CustomRule) (hv : c.Validate = none)
    (hN : utf8.ValidString c.Name = true) (hD : utf8.ValidString c.Description = true)
    (hE : ∀ x ∈ c.Expressions.range, utf8.ValidString x = true) :
    json.Unmarshal c.ToString = some c := by
  obtain ⟨hL, hS, hC, hT⟩ := (Validate_eq_none_iff c).1 hv
  rw [fieldError_eq_none_iff] at hL hS hC hT
  have aL : ∀ s ∈ allowedLanguages, utf8.ValidString s = true := by decide
  have aS : ∀ s ∈ allowedSeverities, utf8.ValidString s = true := by decide
  have aC : ∀ s ∈ allowedConfidences, utf8.ValidString s = true := by decide
  have aT : ∀ s ∈ allowedTypes, utf8.ValidString s = true := by decide
  exact Unmarshal_ToString c ⟨hN, hD, aL _ hL.2, aS _ hS.2, aC _ hC.2, aT _ hT.2, hE⟩

/-- C7, amended, at the scenario rule. -/
theorem ToString_round_trip_witness : json.Unmarshal andRule.ToString = some andRule :=
  ToString_round_trip andRule (by decide) (by decide) (by decide) (by decide)

end Horusec
